import Mathlib

/-!
Verification of the OPTAR `CameraPoseEstimator` pose-estimation pipeline
(`src/optar/optar/src/noMarker/ardevices_pose_estimator_single_camera_raw/CameraPoseEstimator.cpp`).

This file gives a shallow embedding of the estimator's data model and of the
operations `findOrbMatches`, `filterMatches`, `fixMatchesDepthOrDrop`,
`get3dPositionsAndImagePositions`, `saveInliersToMemory`, `computeOrbFeatures`,
`computeAngleFromZAxis`, `update` and `featuresCallback`, and proves properties
of the gate pipeline, the match filter/merger, the depth resolver and the
feature-memory save loop.

Modelling conventions:
* C++ `float`/`double` quantities that the code compares or averages are
  embedded as `ℚ` (exact arithmetic); the real-valued trigonometry of
  `computeAngleFromZAxis` is embedded over `ℝ`.
* `cv::Mat` depth images (`CV_16UC1`, millimetres, 0 = unknown) are embedded as
  a list of rows of `Nat` values; reads out of bounds yield 0 and writes out of
  bounds are no-ops (the C++ `Mat::at` with a `Point` is unchecked there).
* Calls into external libraries whose numeric results the estimator only
  compares or stores (`cv::solvePnPRansac`, `cv::projectPoints`,
  `tf2::doTransform`, message decoding, ORB extraction) are oracles: their
  results are inputs of the embedded function.
* The helpers `findNearestNonZeroPixel` and `findLowestNonZeroInRing` are
  declared in `utils.hpp` but their implementation (`utils.cpp`) is not part of
  the sources; they are modelled from the spec (marked below).
-/

namespace CPE

/-- A feature match, as `cv::DMatch` is used by this code: a query-side
(mobile/arcore) keypoint index, a train-side (fixed/kinect) keypoint index and
a descriptor distance (a C++ `float`, embedded as `ℚ`). -/
structure DMatch where
  queryIdx : Nat
  trainIdx : Nat
  distance : ℚ
deriving DecidableEq

/-- A keypoint reduced to its pixel position `pt` (the only field of
`cv::KeyPoint` this code reads); coordinates are C++ `float`, embedded as `ℚ`. -/
structure KeyPt where
  x : ℚ
  y : ℚ
deriving DecidableEq

/-- Keypoint lookup, `keypoints.at(i)` on an index the pipeline keeps in
range (out-of-range here yields a junk default, not an exception, bbecause no
claim depends on that path of `filterMatches` / `fixMatchesDepthOrDrop`). -/
def kpAt (kps : List KeyPt) (i : Nat) : KeyPt :=
  kps.getD i ⟨0, 0⟩

/-- `cv::norm(a.pt - b.pt) <= t`, encoded by comparing squares: for `0 ≤ t`
this is exactly the C++ comparison of the Euclidean pixel distance with `t`. -/
def nearPt (a b : KeyPt) (t : ℚ) : Bool :=
  decide ((a.x - b.x) ^ 2 + (a.y - b.y) ^ 2 ≤ t ^ 2)

/-- An ORB descriptor, as an abstract bit row of the descriptor matrix. -/
abbrev Descriptor := List Bool

/-- `NORM_HAMMING` distance between two descriptor rows. -/
def hammingDist (a b : Descriptor) : Nat :=
  ((a.zip b).filter (fun p => p.1 != p.2)).length

/-- Best train-side match for one query descriptor under `BFMatcher`
(`NORM_HAMMING`, no cross-check): the first train index of minimal Hamming
distance, or `none` when the train set is empty. -/
def bfBestMatch (train : List Descriptor) (q : Descriptor) : Option (Nat × Nat) :=
  train.enum.foldl
    (fun best jd =>
      match best with
      | none => some (jd.1, hammingDist q jd.2)
      | some bd => if hammingDist q jd.2 < bd.2 then some (jd.1, hammingDist q jd.2) else best)
    none

/-- `cv::BFMatcher::match(arcoreDescriptors, kinectDescriptors, matches)`:
one candidate match per query descriptor (none when the train set is empty). -/
def bfMatchAll (query train : List Descriptor) : List DMatch :=
  query.enum.filterMap
    (fun iq => (bfBestMatch train iq.2).map (fun jd => ⟨iq.1, jd.1, (jd.2 : ℚ)⟩))

/-- `CameraPoseEstimator::findOrbMatches` (CameraPoseEstimator.cpp:752):
runs the brute-force matcher and returns `0` unconditionally, paired with the
produced match list. -/
def findOrbMatches (arcoreDescriptors kinectDescriptors : List Descriptor) :
    Int × List DMatch :=
  (0, bfMatchAll arcoreDescriptors kinectDescriptors)

/-! ### The match filter/merger (`CameraPoseEstimator::filterMatches`, lines 773-882) -/

/-- Stage 1 of `filterMatches`: keep matches with
`matches[i].distance <= matchingThreshold`. -/
def thresholdFilter (matchList : List DMatch) (matchingThreshold : ℚ) : List DMatch :=
  matchList.filter (fun m => decide (m.distance ≤ matchingThreshold))

/-- The in-place erase sequence of `filterMatches`: successively
`goodMatches.erase(goodMatches.begin() + idx - elementsErased)` for each stored
index, with `elementsErased` incremented after each erase. -/
def eraseAtIdxs {α : Type} (l : List α) (idxs : List Nat) : List α :=
  (idxs.foldl (fun acc k => (acc.1.eraseIdx (k - acc.2), acc.2 + 1)) (l, 0)).1

/-- `matchesWithSameOrigin` at loop index `i`: all indices `j` with `i ≤ j`
whose mobile-side keypoint is within `keypointMinDistThreshold` of match `i`'s
mobile-side keypoint (the C++ inner loop runs `j` from `i` upward). -/
def sameOriginIdxs (arcoreKeypoints : List KeyPt) (t : ℚ) (gm : List DMatch) (i : Nat) :
    List Nat :=
  (List.range gm.length).filter
    (fun j =>
      decide (i ≤ j) &&
        nearPt (kpAt arcoreKeypoints (gm.getD i ⟨0, 0, 0⟩).queryIdx)
          (kpAt arcoreKeypoints (gm.getD j ⟨0, 0, 0⟩).queryIdx) t)

/-- `haveSameDestination` at loop index `i`: every group member's fixed-side
keypoint is within the pixel tolerance of match `i`'s fixed-side keypoint. -/
def haveSameDestination (fixedKeypoints : List KeyPt) (t : ℚ) (gm : List DMatch)
    (i : Nat) (mwso : List Nat) : Bool :=
  mwso.all
    (fun j =>
      nearPt (kpAt fixedKeypoints (gm.getD i ⟨0, 0, 0⟩).trainIdx)
        (kpAt fixedKeypoints (gm.getD j ⟨0, 0, 0⟩).trainIdx) t)

/-- One iteration of the ambiguity-resolution loop of `filterMatches`
(lines 804-858): build the same-origin group of index `i`; groups of size ≤ 1
are left alone; contradictory groups are erased entirely; agreeing groups are
merged into the representative, whose distance becomes the group's mean
distance, and the other members are erased. -/
def mergeStep (arcoreKeypoints fixedKeypoints : List KeyPt) (t : ℚ)
    (gm : List DMatch) (i : Nat) : List DMatch :=
  let mwso := sameOriginIdxs arcoreKeypoints t gm i
  if mwso.length ≤ 1 then gm
  else if haveSameDestination fixedKeypoints t gm i mwso then
    let averageDist := (mwso.map (fun j => (gm.getD j ⟨0, 0, 0⟩).distance)).sum / mwso.length
    eraseAtIdxs (gm.set i { gm.getD i ⟨0, 0, 0⟩ with distance := averageDist }) mwso.tail
  else
    eraseAtIdxs gm mwso

theorem mergeStep_length_le (aK fK : List KeyPt) (t : ℚ) (gm : List DMatch) (i : Nat) :
    (mergeStep aK fK t gm i).length ≤ gm.length := by
  have herase : ∀ (l : List DMatch) (idxs : List Nat), (eraseAtIdxs l idxs).length ≤ l.length := by
    intro l idxs
    unfold eraseAtIdxs
    suffices h : ∀ (p : List DMatch × Nat), ((idxs.foldl
        (fun acc k => (acc.1.eraseIdx (k - acc.2), acc.2 + 1)) p).1).length ≤ p.1.length by
      exact h (l, 0)
    induction idxs with
    | nil => intro p; simp
    | cons a as ih =>
      intro p
      calc ((as.foldl _ (p.1.eraseIdx (a - p.2), p.2 + 1)).1).length
          ≤ (p.1.eraseIdx (a - p.2)).length := ih _
        _ ≤ p.1.length := List.length_eraseIdx_le _ _
  unfold mergeStep
  dsimp only
  split
  · exact le_rfl
  · split
    · exact le_trans (herase _ _) (by simp)
    · exact herase _ _

/-- The ambiguity-resolution loop: `for (size_t i = 0; i < goodMatches.size(); i++)`
applying `mergeStep` (the size is re-read each iteration, as in the C++). -/
def mergeLoop (arcoreKeypoints fixedKeypoints : List KeyPt) (t : ℚ)
    (gm : List DMatch) (i : Nat) : List DMatch :=
  if h : i < gm.length then
    mergeLoop arcoreKeypoints fixedKeypoints t (mergeStep arcoreKeypoints fixedKeypoints t gm i) (i + 1)
  else gm
termination_by gm.length - i
decreasing_by
  have := mergeStep_length_le arcoreKeypoints fixedKeypoints t gm i
  omega

/-- `CameraPoseEstimator::filterMatches` (lines 773-882): threshold filter, then
the ambiguity-resolution loop.  `t` is the member `keypointMinDistThreshold`
(its value lives in the header, which is not among the sources; it is a
nonnegative pixel tolerance).  The C++ function also returns an `int` that is
always `0`; only the output list is modelled. -/
def filterMatches (matchList : List DMatch) (arcoreKeypoints fixedKeypoints : List KeyPt)
    (matchingThreshold t : ℚ) : List DMatch :=
  mergeLoop arcoreKeypoints fixedKeypoints t (thresholdFilter matchList matchingThreshold) 0

/-- Whether one resolution-loop iteration takes the contradictory branch
(a group of size > 1 whose destinations disagree). -/
def stepContradicts (arcoreKeypoints fixedKeypoints : List KeyPt) (t : ℚ)
    (gm : List DMatch) (i : Nat) : Bool :=
  let mwso := sameOriginIdxs arcoreKeypoints t gm i
  decide (1 < mwso.length) && !haveSameDestination fixedKeypoints t gm i mwso

/-- Whether any iteration of the resolution loop from index `i` onward takes the
contradictory branch. -/
def loopContradicts (arcoreKeypoints fixedKeypoints : List KeyPt) (t : ℚ)
    (gm : List DMatch) (i : Nat) : Bool :=
  if h : i < gm.length then
    stepContradicts arcoreKeypoints fixedKeypoints t gm i ||
      loopContradicts arcoreKeypoints fixedKeypoints t
        (mergeStep arcoreKeypoints fixedKeypoints t gm i) (i + 1)
  else false
termination_by gm.length - i
decreasing_by
  have := mergeStep_length_le arcoreKeypoints fixedKeypoints t gm i
  omega

/-- Removing a set of positions from a list in one pass (the clean functional
description of the erase sequence): keep the elements whose position, counted
from `n`, is not listed in `S`. -/
def removePositions {α : Type} (S : List Nat) : List α → Nat → List α
  | [], _ => []
  | a :: as, n =>
    if S.contains n then removePositions S as (n + 1) else a :: removePositions S as (n + 1)

/-! ### The depth resolver (`CameraPoseEstimator::fixMatchesDepthOrDrop`, lines 1098-1126)

The depth image (`CV_16UC1`, millimetres, 0 = unknown) is a list of rows of
`Nat` values.  The C++ reads/writes the image at `Point2f` positions in two
ways: passing the coordinates to `int` parameters truncates toward zero, while
`Mat::at<uint16_t>(Point2f)` converts through `saturate_cast<int>` which rounds
to nearest, ties to even (`cvRound`).  Both conversions are embedded exactly. -/

/-- Float-to-int conversion (truncation toward zero), applied when a `Point2f`
coordinate is passed to an `int` parameter. -/
def ratTrunc (q : ℚ) : Int :=
  if 0 ≤ q then ⌊q⌋ else -⌊-q⌋

/-- `cvRound`: round to nearest, ties to even (used by `saturate_cast<int>`
when a `Point2f` is converted to a `Point2i` for `Mat::at`). -/
def ratRound (q : ℚ) : Int :=
  if q - (⌊q⌋ : ℚ) < 1 / 2 then ⌊q⌋
  else if 1 / 2 < q - (⌊q⌋ : ℚ) then ⌊q⌋ + 1
  else if ⌊q⌋ % 2 = 0 then ⌊q⌋ else ⌊q⌋ + 1

/-- Read the depth image at integer pixel coordinates; out of bounds reads 0. -/
def readPix (img : List (List Nat)) (x y : Int) : Nat :=
  if 0 ≤ x ∧ 0 ≤ y then (img.getD y.toNat []).getD x.toNat 0 else 0

/-- Write the depth image at integer pixel coordinates; out of bounds is a
no-op (the C++ access there is unchecked and never exercised in bounds-valid
runs). -/
def writePix (img : List (List Nat)) (x y : Int) (v : Nat) : List (List Nat) :=
  if 0 ≤ x ∧ 0 ≤ y then img.set y.toNat ((img.getD y.toNat []).set x.toNat v) else img

/-- All pixels of the image as `(x, y, value)` triples. -/
def pixList (img : List (List Nat)) : List (Nat × Nat × Nat) :=
  (img.enum.map (fun yr => yr.2.enum.map (fun xv => (xv.1, yr.1, xv.2)))).flatten

/-- Squared distance between an integer search centre and a pixel. -/
def dSq (cx cy : Int) (x y : Nat) : Nat :=
  (((cx - x) ^ 2 + (cy - y) ^ 2)).toNat

/-- Minimum of a list of naturals (`none` on the empty list). -/
def listMinN : List Nat → Option Nat
  | [] => none
  | a :: as =>
    match listMinN as with
    | none => some a
    | some b => some (min a b)

/-- Modelled from the spec: `findNearestNonZeroPixel(image, x, y, maxDist)` is
implemented in `utils.cpp`, which is not among the sources (only its
declaration in `utils.hpp` is).  Per §4.3 it searches outward for the nearest
nonzero pixel within a bounded radius; only the distance of that pixel is used
by the caller, so the model returns the minimal squared distance from the
centre to a nonzero pixel at distance ≤ `maxD`, or `none` when every pixel
within the radius is zero. -/
def nearestNZDistSq (img : List (List Nat)) (cx cy : Int) (maxD : Nat) : Option Nat :=
  listMinN ((pixList img).filterMap
    (fun p =>
      if p.2.2 ≠ 0 ∧ dSq cx cy p.1 p.2.1 ≤ maxD ^ 2 then some (dSq cx cy p.1 p.2.1) else none))

/-- Decides `dist ≤ √dsq + 10` on squared distances:
`dsqP ≤ dsq + 100 + 20·√dsq`, split into the two exact natural comparisons. -/
def withinOuter (dsqP dsq : Nat) : Bool :=
  decide (dsqP ≤ dsq + 100) || decide ((dsqP - dsq - 100) ^ 2 ≤ 400 * dsq)

/-- Modelled from the spec: `findLowestNonZeroInRing(image, x, y, maxRadius,
minRadius)` is implemented in `utils.cpp`, which is not among the sources.
Per §4.3 and the caller's comment it finds the lowest nonzero depth value in
the ring of inner radius `√dsq` (the nearest-nonzero distance) and outer
radius `√dsq + 10`; only the depth value at the returned pixel is used by the
caller, so the model returns that minimal nonzero value. -/
def ringMinNonZero (img : List (List Nat)) (cx cy : Int) (dsq : Nat) : Option Nat :=
  listMinN ((pixList img).filterMap
    (fun p =>
      if p.2.2 ≠ 0 ∧ dsq ≤ dSq cx cy p.1 p.2.1 ∧ withinOuter (dSq cx cy p.1 p.2.1) dsq then
        some p.2.2
      else none))

/-- The per-match body of `fixMatchesDepthOrDrop` (lines 1104-1113): search for
the nearest nonzero pixel within distance 100 of the (truncated) match pixel,
take the lowest nonzero value in the 10px ring at that distance, and write it
back at the (rounded) match pixel.  The zero-depth guard around this block is
commented out in the source, so the search-and-write-back runs for every
match.  When no nonzero pixel is in reach the written value is 0 (the match is
then dropped by the caller, per §4.3). -/
def repairAt (img : List (List Nat)) (kp : KeyPt) : List (List Nat) :=
  let v :=
    match nearestNZDistSq img (ratTrunc kp.x) (ratTrunc kp.y) 100 with
    | none => 0
    | some dsq => (ringMinNonZero img (ratTrunc kp.x) (ratTrunc kp.y) dsq).getD 0
  writePix img (ratRound kp.x) (ratRound kp.y) v

/-- `CameraPoseEstimator::fixMatchesDepthOrDrop` (lines 1098-1126): for each
match in order, repair the depth at its fixed-side pixel in place, then keep
the match iff the depth now reads nonzero.  Returns the surviving matches and
the mutated depth image.  (The C++ `int` return is always 0 and not
modelled.) -/
def fixMatchesDepthOrDrop (inputMatches : List DMatch) (fixedKeypoints : List KeyPt)
    (img : List (List Nat)) : List DMatch × List (List Nat) :=
  match inputMatches with
  | [] => ([], img)
  | m :: ms =>
    let kp := kpAt fixedKeypoints m.trainIdx
    let img1 := repairAt img kp
    let rest := fixMatchesDepthOrDrop ms fixedKeypoints img1
    if readPix img1 (ratRound kp.x) (ratRound kp.y) = 0 then rest
    else (m :: rest.1, rest.2)

/-! ### 3D reconstruction (`get3dPositionsAndImagePositions`, lines 1140-1166) -/

/-- Fixed-camera intrinsics (`kinectCameraMatrix` entries used by the code). -/
structure CamIntrinsics where
  fx : ℚ
  fy : ℚ
  cx : ℚ
  cy : ℚ
deriving DecidableEq

/-- Modelled from the spec: `get3dPoint(x, y, depth_mm, fx, fy, cx, cy)` is
implemented in `utils.cpp`, which is not among the sources.  Per §4.4 and the
glossary it is the standard pinhole inverse-projection of a pixel and a
millimetre depth sample into a metric 3D point in the fixed camera's optical
frame. -/
def get3dPoint (x y : Int) (depthMM : Nat) (intr : CamIntrinsics) : ℚ × ℚ × ℚ :=
  (((x : ℚ) - intr.cx) * depthMM / (1000 * intr.fx),
   ((y : ℚ) - intr.cy) * depthMM / (1000 * intr.fy),
   (depthMM : ℚ) / 1000)

/-- `CameraPoseEstimator::get3dPositionsAndImagePositions` (lines 1140-1166):
back-project every match's fixed-side pixel at its (repaired) depth and pair
it with the mobile-side pixel.  The pixel coordinates are truncated when passed
to `get3dPoint`'s `int` parameters, and the depth is read at the rounded pixel
(`Mat::at<uint16_t>(Point2f)`).  (The C++ `int` return is always 0.) -/
def get3dPositionsAndImagePositions (inputMatches : List DMatch)
    (fixedKeypoints arcoreKeypoints : List KeyPt) (img : List (List Nat))
    (intr : CamIntrinsics) : List (ℚ × ℚ × ℚ) × List (ℚ × ℚ) :=
  (inputMatches.map
    (fun m =>
      let kp := kpAt fixedKeypoints m.trainIdx
      get3dPoint (ratTrunc kp.x) (ratTrunc kp.y)
        (readPix img (ratRound kp.x) (ratRound kp.y)) intr),
   inputMatches.map
    (fun m =>
      let kp := kpAt arcoreKeypoints m.queryIdx
      (kp.x, kp.y)))

/-! ### Feature memory save (`saveInliersToMemory`, lines 574-603) -/

/-- A camera pose: position and orientation quaternion, as the code carries
them (`geometry_msgs::Pose` / `PoseStamped`); components embedded as `ℚ`. -/
structure Pose where
  px : ℚ
  py : ℚ
  pz : ℚ
  qx : ℚ
  qy : ℚ
  qz : ℚ
  qw : ℚ
deriving DecidableEq

/-- A `FeaturesMemory::Feature` as constructed by `saveInliersToMemory`.
The C++ stores the Euclidean observer distance; to keep the embedding
computable its square is stored instead (its value is never compared by the
estimator, only handed to the external memory). -/
structure StoredFeature where
  keypoint : KeyPt
  descriptor : Descriptor
  observerDistanceSq : ℚ
  observerDirection : ℚ × ℚ × ℚ
  depth : Nat
deriving DecidableEq

/-- `std::vector::at` / bounds-asserted `cv::Mat::row`: `none` models the
exception / assertion failure on an out-of-range index. -/
def checkedAt {α : Type} (l : List α) (i : Nat) : Option α :=
  l.get? i

/-- `CameraPoseEstimator::saveInliersToMemory` (lines 574-603): for each
solver inlier, look up the match (`goodMatches.at`), its 3D position
(`goodMatches3dPos.at`), and the keypoint/descriptor at the match's
`trainIdx` (`keypoints.at`, `descriptors.row`, both range-checked), read the
depth at the keypoint's pixel (unchecked `Mat::at`), and build the stored
feature.  `none` models the exception thrown by the first out-of-range access;
features built before the exception were already handed to the external
memory, but the loop does not complete. -/
def saveInliersToMemory (inliers : List Nat) (goodMatches3dPos : List (ℚ × ℚ × ℚ))
    (cameraPose : Pose) (goodMatches : List DMatch) (keypoints : List KeyPt)
    (descriptors : List Descriptor) (img : List (List Nat)) :
    Option (List StoredFeature) :=
  match inliers with
  | [] => some []
  | i :: rest => do
    let p3 ← checkedAt goodMatches3dPos i
    let m ← checkedAt goodMatches i
    let kp ← checkedAt keypoints m.trainIdx
    let d ← checkedAt descriptors m.trainIdx
    let dir : ℚ × ℚ × ℚ := (p3.1 - cameraPose.px, p3.2.1 - cameraPose.py, p3.2.2 - cameraPose.pz)
    let feat : StoredFeature :=
      { keypoint := kp
        descriptor := d
        observerDistanceSq := dir.1 ^ 2 + dir.2.1 ^ 2 + dir.2.2 ^ 2
        observerDirection := dir
        depth := readPix img (ratRound kp.x) (ratRound kp.y) }
    let feats ← saveInliersToMemory rest goodMatches3dPos cameraPose goodMatches keypoints
      descriptors img
    pure (feat :: feats)

/-! ### The estimator (`update`, lines 254-512, and `featuresCallback`, lines 134-225) -/

/-- The configuration fields read by `update` / `featuresCallback`
(set once by `setupParameters`).  The solver-tuning values
(`pnpReprojectionError`, `pnpConfidence`, `pnpIterations`) and the ORB
extraction parameters are passed only to the external solver/extractor and are
not modelled; `keypointMinDistThreshold` is the fixed member pixel tolerance of
`filterMatches`. -/
structure EstimatorConfig where
  matchingThreshold : ℚ
  reprojectionErrorDiscardThreshold : ℚ
  phoneOrientationDifferenceThreshold : ℚ
  minimumMatchesNumber : Nat
  enableFeaturesMemory : Bool
  maxPoseHeight : ℚ
  minPoseHeight : ℚ
  keypointMinDistThreshold : ℚ
deriving DecidableEq

/-- The estimator's carried-over state (the instance fields assigned at
lines 495-498). -/
structure EstimatorState where
  lastPoseEstimate : Pose
  lastEstimateMatchesNumber : Nat
  lastEstimateReprojectionError : ℚ
  didComputeEstimate : Bool
deriving DecidableEq

/-- Oracle for the external numeric calls of `update`: the result of
`cv::solvePnPRansac` (success flag and inlier index list), the mean
reprojection error computed from `cv::projectPoints`, the candidate pose in
the fixed-camera frame (from `rvec`/`tvec` via `opencvPoseToEigenPose` and
`invertPose`), the world-frame pose after `tf2::doTransform`, and the value of
`computeAngleFromZAxis` on the candidate pose (a real number, carried as the
rational the gate comparison sees). -/
structure SolverOracle where
  pnpSuccess : Bool
  inliers : List Nat
  reprojectionError : ℚ
  cameraPoseFixedFrame : Pose
  worldPose : Pose
  angleFromZ : ℚ
deriving DecidableEq

/-- `CameraPoseEstimator::update` (lines 254-512).  Returns `none` when the
call does not return at all (an out-of-range access in the feature-memory save
loop throws); otherwise `some (outcome, state after the call)`.  The branch
structure follows the source line by line:
the checks returning `-1`/`-2`/`-3`/`-4` guard the `int` codes of the four
sub-steps, which all end in a literal `return 0`, so only the (modelled) `-1`
check appears and the other three are statically dead; then `1` when
`goodMatches.size() < 4 || goodMatches.size() < minimumMatchesNumber`, then `r = -1` when the solver returned false, `2` when
`inliers.size() < 4 || inliers.size() < minimumMatchesNumber`, `-5` when
`r < 0`, `3` on reprojection error above threshold, `4`/`5` on world height
above/below bounds, `6` on orientation difference above threshold, else the
state fields are assigned and `0` is returned. -/
def goodMatchesStage (cfg : EstimatorConfig) (arcoreKeypoints : List KeyPt)
    (arcoreDescriptors : List Descriptor) (fixedKeypoints : List KeyPt)
    (fixedDescriptors : List Descriptor) (kinectDepthImage : List (List Nat)) :
    List DMatch × List (List Nat) :=
  fixMatchesDepthOrDrop
    (filterMatches (findOrbMatches arcoreDescriptors fixedDescriptors).2 arcoreKeypoints
      fixedKeypoints cfg.matchingThreshold cfg.keypointMinDistThreshold)
    fixedKeypoints kinectDepthImage

def update (cfg : EstimatorConfig) (st : EstimatorState)
    (arcoreKeypoints : List KeyPt) (arcoreDescriptors : List Descriptor)
    (fixedKeypoints : List KeyPt) (fixedDescriptors : List Descriptor)
    (kinectDepthImage : List (List Nat)) (intr : CamIntrinsics)
    (o : SolverOracle) : Option (Int × EstimatorState) :=
  let r0 := findOrbMatches arcoreDescriptors fixedDescriptors
  if r0.1 < 0 then some (-1, st)
  else
    let fixed := goodMatchesStage cfg arcoreKeypoints arcoreDescriptors fixedKeypoints
      fixedDescriptors kinectDepthImage
    let goodMatches := fixed.1
    let pos := get3dPositionsAndImagePositions goodMatches fixedKeypoints arcoreKeypoints
      fixed.2 intr
    if goodMatches.length < 4 ∨ goodMatches.length < cfg.minimumMatchesNumber then some (1, st)
    else
      let r2 : Int := if o.pnpSuccess then 0 else -1
      if o.inliers.length < 4 ∨ o.inliers.length < cfg.minimumMatchesNumber then some (2, st)
      else if r2 < 0 then some (-5, st)
      else if cfg.reprojectionErrorDiscardThreshold < o.reprojectionError then some (3, st)
      else if cfg.maxPoseHeight < o.worldPose.pz then some (4, st)
      else if o.worldPose.pz < cfg.minPoseHeight then some (5, st)
      else if cfg.phoneOrientationDifferenceThreshold < o.angleFromZ then some (6, st)
      else
        let saved :=
          if cfg.enableFeaturesMemory then
            saveInliersToMemory o.inliers pos.1 o.cameraPoseFixedFrame goodMatches
              arcoreKeypoints arcoreDescriptors fixed.2
          else some []
        saved.map (fun _ =>
          (0, { lastPoseEstimate := o.worldPose,
                lastEstimateMatchesNumber := goodMatches.length,
                lastEstimateReprojectionError := o.reprojectionError,
                didComputeEstimate := true }))

/-- `CameraPoseEstimator::computeOrbFeatures` (lines 720-743), over the oracle
results of the external ORB extractor: `-1` when no keypoints were found, `-2`
when no descriptors, else `0`. -/
def computeOrbFeatures (keypoints : List KeyPt) (descriptors : List Descriptor) : Int :=
  if keypoints.isEmpty then -1
  else if descriptors.isEmpty then -2
  else 0

/-- `CameraPoseEstimator::featuresCallback` (lines 134-225): decode the input
messages (oracle flag `readOk`; failure returns `-1`), extract fixed-side ORB
features (failure returns `-2`), append the feature-memory keypoints and
descriptors to the fixed side when enabled, then return ten times `update`'s
outcome (`r = 10 * update(...)`). -/
def featuresCallback (readOk : Bool) (cfg : EstimatorConfig) (st : EstimatorState)
    (arcoreKeypoints : List KeyPt) (arcoreDescriptors : List Descriptor)
    (orbKeypoints : List KeyPt) (orbDescriptors : List Descriptor)
    (memory : List StoredFeature) (kinectDepthImage : List (List Nat))
    (intr : CamIntrinsics) (o : SolverOracle) : Option (Int × EstimatorState) :=
  if !readOk then some (-1, st)
  else if computeOrbFeatures orbKeypoints orbDescriptors < 0 then some (-2, st)
  else
    let fixedKeypoints :=
      if cfg.enableFeaturesMemory then orbKeypoints ++ memory.map (fun f => f.keypoint)
      else orbKeypoints
    let fixedDescriptors :=
      if cfg.enableFeaturesMemory then orbDescriptors ++ memory.map (fun f => f.descriptor)
      else orbDescriptors
    (update cfg st arcoreKeypoints arcoreDescriptors fixedKeypoints fixedDescriptors
        kinectDepthImage intr o).map (fun p => (10 * p.1, p.2))

/-- The validator pipeline in the words of the spec (§4.6 and §6): gate 1
rejects with 1 when the correspondence count is below `max(4,
minimumMatchesNumber)`, gate 2 with 2 on the inlier count, a solver failure
surfaces as the internal code `-5`, gate 3 with 3 on the mean reprojection
error, gates 4/5 with 4/5 on the world height, gate 6 with 6 on the
orientation difference, and acceptance returns 0. -/
def validatorOutcomeSpec (minMatches : Nat) (reprojThr maxH minH angThr : ℚ)
    (count inlierCount : Nat) (solverOk : Bool) (reprojErr z ang : ℚ) : Int :=
  if count < max 4 minMatches then 1
  else if inlierCount < max 4 minMatches then 2
  else if !solverOk then -5
  else if reprojThr < reprojErr then 3
  else if maxH < z then 4
  else if z < minH then 5
  else if angThr < ang then 6
  else 0

/-! ### The orientation angle (`computeAngleFromZAxis`, lines 610-617) -/

/-- The optical axis of a pose: `tf::Transform(poseTf.getRotation()) *
tf::Vector3(0,0,1)`, i.e. the third column of the `tf::Matrix3x3` built from
the (not necessarily unit) quaternion with the `s = 2/d` normalisation used by
`tf::Matrix3x3::setRotation`.  A rational function of the components. -/
def opticalAxis (p : Pose) : ℚ × ℚ × ℚ :=
  let d := p.qx ^ 2 + p.qy ^ 2 + p.qz ^ 2 + p.qw ^ 2
  let s := 2 / d
  ((p.qx * p.qz + p.qw * p.qy) * s,
   (p.qy * p.qz - p.qw * p.qx) * s,
   1 - (p.qx ^ 2 + p.qy ^ 2) * s)

/-- `tf::Vector3::angle(v2)`: `acos(dot(v1,v2) / sqrt(length2(v1) * length2(v2)))`. -/
noncomputable def tfAngle (v w : ℝ × ℝ × ℝ) : ℝ :=
  Real.arccos ((v.1 * w.1 + v.2.1 * w.2.1 + v.2.2 * w.2.2) /
    Real.sqrt ((v.1 ^ 2 + v.2.1 ^ 2 + v.2.2 ^ 2) * (w.1 ^ 2 + w.2.1 ^ 2 + w.2.2 ^ 2)))

/-- The angle (in radians) between a pose's optical axis and the global
vertical `(0,0,1)`, as the code computes it before scaling. -/
noncomputable def angleFromVertical (p : Pose) : ℝ :=
  tfAngle (((opticalAxis p).1 : ℝ), ((opticalAxis p).2.1 : ℝ), ((opticalAxis p).2.2 : ℝ))
    (0, 0, 1)

/-- `CameraPoseEstimator::computeAngleFromZAxis` (lines 610-617):
`std::abs(opticalAxis.angle(zUnitVector)) * 180 / 3.14159`. -/
noncomputable def computeAngleFromZAxis (p : Pose) : ℝ :=
  |angleFromVertical p| * 180 / 3.14159

/-- The quantity named by the spec: the angle between the optical axis and the
global vertical, in degrees (radians times `180 / π`). -/
noncomputable def angleFromVerticalDeg (p : Pose) : ℝ :=
  |angleFromVertical p| * 180 / Real.pi

/-! ### Predicates used in the analysis of the filter/merger loop -/

/-- The mobile-side (origin) keypoint of a match. -/
def origKp (arcoreKeypoints : List KeyPt) (m : DMatch) : KeyPt :=
  kpAt arcoreKeypoints m.queryIdx

/-- The first `i` entries of `gm` are origin-separated from everything after
them: any entry at a position `p < i` and any entry at a later position have
mobile-side keypoints farther apart than the pixel tolerance. -/
def SepPrefix (arcoreKeypoints : List KeyPt) (t : ℚ) (gm : List DMatch) (i : Nat) : Prop :=
  ∀ p q a b, p < i → p < q → gm.get? p = some a → gm.get? q = some b →
    nearPt (origKp arcoreKeypoints a) (origKp arcoreKeypoints b) t = false

/-- All entries of `gm` are pairwise origin-separated. -/
def SepAll (arcoreKeypoints : List KeyPt) (t : ℚ) (gm : List DMatch) : Prop :=
  List.Pairwise (fun a b => nearPt (origKp arcoreKeypoints a) (origKp arcoreKeypoints b) t = false) gm

/-! ### Concrete sample inputs used by the counterexamples and witnesses -/

/-- A neutral pose (identity quaternion at the origin). -/
def poseA : Pose := ⟨0, 0, 0, 0, 0, 0, 1⟩

/-- A pose rotated half a turn about x: its optical axis is `(0, 0, -1)`. -/
def poseB : Pose := ⟨0, 0, 0, 1, 0, 0, 0⟩

/-- A small estimator configuration (feature memory disabled). -/
def cfgA : EstimatorConfig := ⟨1, 1, 1, 4, false, 1, 0, 1⟩

/-- An initial estimator state. -/
def stA : EstimatorState := ⟨poseA, 0, 0, false⟩

/-- Unit intrinsics. -/
def intrA : CamIntrinsics := ⟨1, 1, 0, 0⟩

/-- A solver oracle reporting success with no inliers. -/
def oA : SolverOracle := ⟨true, [], 0, poseA, poseA, 0⟩

/-- Mobile keypoints: two coincident points (one same-origin group). -/
def aKB : List KeyPt := [⟨0, 0⟩, ⟨0, 0⟩]

/-- A single fixed keypoint (one shared destination). -/
def fKB : List KeyPt := [⟨0, 0⟩]

/-- Two matches out of the same origin, distances 1 and 3. -/
def gmB : List DMatch := [⟨0, 0, 1⟩, ⟨1, 0, 3⟩]

/-- Mobile keypoints for the idempotence counterexample: two near pairs. -/
def aKC : List KeyPt := [⟨0, 0⟩, ⟨1, 0⟩, ⟨10, 0⟩, ⟨11, 0⟩]

/-- Fixed keypoints for the idempotence counterexample: all far apart. -/
def fKC : List KeyPt := [⟨0, 0⟩, ⟨5, 0⟩, ⟨20, 0⟩, ⟨30, 0⟩]

/-- Four identity-paired matches for the idempotence counterexample. -/
def mC : List DMatch := [⟨0, 0, 1⟩, ⟨1, 1, 1⟩, ⟨2, 2, 1⟩, ⟨3, 3, 1⟩]

/-- Two near mobile keypoints whose matches merge without contradiction. -/
def aKD : List KeyPt := [⟨0, 0⟩, ⟨1, 0⟩]

/-- Two matches that form one agreeing group. -/
def mD : List DMatch := [⟨0, 0, 1⟩, ⟨1, 1, 2⟩]

/-- A depth row whose only nonzero sample sits at `x = 200`. -/
def imgE : List (List Nat) := [List.replicate 200 0 ++ [7]]

/-- Fixed keypoints at `x = 0` and `x = 100` over `imgE`. -/
def fKE : List KeyPt := [⟨0, 0⟩, ⟨100, 0⟩]

/-- Three matches whose repairs interact through the shared depth image. -/
def msE : List DMatch := [⟨0, 0, 1⟩, ⟨2, 1, 1⟩, ⟨1, 0, 1⟩]

/-- Four far-apart mobile keypoints (no grouping at tolerance 1). -/
def aKF : List KeyPt := [⟨0, 0⟩, ⟨10, 0⟩, ⟨20, 0⟩, ⟨30, 0⟩]

/-- Four pairwise distinct descriptors, so the matcher pairs each with itself. -/
def dsF : List Descriptor := [[true, false], [false, true], [true, true], [false, false]]

/-- Four fixed keypoints, all over the single nonzero depth pixel. -/
def fKF : List KeyPt := [⟨0, 0⟩, ⟨0, 0⟩, ⟨0, 0⟩, ⟨0, 0⟩]

/-- A one-pixel nonzero depth image. -/
def imgF : List (List Nat) := [[5]]

/-- A configuration under which the sample run reaches the orientation gate. -/
def cfgF : EstimatorConfig := ⟨1, 1, 1, 4, false, 1, 0, 1⟩

/-- An oracle with four inliers whose orientation angle exceeds the threshold. -/
def oF : SolverOracle := ⟨true, [0, 1, 2, 3], 0, poseA, poseA, 2⟩

/-! ## Lemmas: the in-place erase sequence removes exactly the stored positions -/

theorem get?_isSome_iff {α : Type} (l : List α) (n : Nat) :
    (l.get? n).isSome ↔ n < l.length := by
  cases h : l.get? n with
  | none =>
    have := List.get?_eq_none.mp h
    simp only [Option.isSome_none, Bool.false_eq_true, false_iff]
    omega
  | some a =>
    obtain ⟨hlt, -⟩ := List.get?_eq_some.mp h
    simp [hlt]

theorem removePositions_nil {α : Type} (l : List α) (n : Nat) :
    removePositions [] l n = l := by
  induction l generalizing n with
  | nil => rfl
  | cons a as ih => simp [removePositions, ih]

theorem removePositions_sublist {α : Type} (S : List Nat) (l : List α) (n : Nat) :
    List.Sublist (removePositions S l n) l := by
  induction l generalizing n with
  | nil => simp [removePositions]
  | cons a as ih =>
    unfold removePositions
    split
    · exact (ih (n + 1)).cons a
    · exact (ih (n + 1)).cons₂ a

theorem removePositions_mem {α : Type} (S : List Nat) (l : List α) (n : Nat) (b : α)
    (h : b ∈ removePositions S l n) :
    ∃ j, l.get? j = some b ∧ (n + j) ∉ S := by
  induction l generalizing n with
  | nil => simp [removePositions] at h
  | cons a as ih =>
    unfold removePositions at h
    split at h
    · obtain ⟨j, hj, hnj⟩ := ih (n + 1) h
      refine ⟨j + 1, by simpa using hj, ?_⟩
      rw [show n + (j + 1) = n + 1 + j by omega]
      exact hnj
    · rename_i hc
      have hcn : n ∉ S := by
        intro hmem
        exact hc (by simpa using hmem)
      rcases List.mem_cons.mp h with rfl | h2
      · exact ⟨0, rfl, by simpa using hcn⟩
      · obtain ⟨j, hj, hnj⟩ := ih (n + 1) h2
        refine ⟨j + 1, by simpa using hj, ?_⟩
        rw [show n + (j + 1) = n + 1 + j by omega]
        exact hnj

theorem removePositions_append {α : Type} (S : List Nat) (l₁ l₂ : List α) (n : Nat)
    (hS : ∀ j ∈ S, n + l₁.length ≤ j) :
    removePositions S (l₁ ++ l₂) n = l₁ ++ removePositions S l₂ (n + l₁.length) := by
  induction l₁ generalizing n with
  | nil => simp
  | cons a as ih =>
    have hn : ¬ S.contains n = true := by
      intro hc
      have hmem : n ∈ S := by simpa using hc
      have := hS n hmem
      simp only [List.length_cons] at this
      omega
    show (if S.contains n = true then removePositions S (as ++ l₂) (n + 1)
        else a :: removePositions S (as ++ l₂) (n + 1)) = _
    rw [if_neg hn]
    rw [ih (n + 1) (by intro j hj; have := hS j hj; simp only [List.length_cons] at this; omega)]
    simp only [List.length_cons, List.cons_append]
    rw [show n + 1 + as.length = n + (as.length + 1) by omega]

theorem removePositions_cons_lt {α : Type} (s : Nat) (S : List Nat) (l : List α) (n : Nat)
    (h : s < n) : removePositions (s :: S) l n = removePositions S l n := by
  induction l generalizing n with
  | nil => rfl
  | cons a as ih =>
    have hc : ((s :: S).contains n) = S.contains n := by
      simp only [List.contains_cons]
      have hne : (n == s) = false := by
        simp only [beq_eq_false_iff_ne, ne_eq]
        omega
      rw [hne, Bool.false_or]
    unfold removePositions
    rw [hc]
    split
    · exact ih (n + 1) (by omega)
    · rw [ih (n + 1) (by omega)]

theorem removePositions_map_sub {α : Type} (S : List Nat) (l : List α) (n : Nat)
    (hS : ∀ j ∈ S, 1 ≤ j) :
    removePositions (S.map (fun k => k - 1)) l n = removePositions S l (n + 1) := by
  induction l generalizing n with
  | nil => rfl
  | cons a as ih =>
    have hc : (S.map (fun k => k - 1)).contains n = S.contains (n + 1) := by
      by_cases hm : (n + 1) ∈ S
      · have h1 : n ∈ S.map (fun k => k - 1) :=
          List.mem_map.mpr ⟨n + 1, hm, by omega⟩
        simp [h1, hm]
      · have h1 : n ∉ S.map (fun k => k - 1) := by
          intro hmem
          obtain ⟨j, hj, hje⟩ := List.mem_map.mp hmem
          have := hS j hj
          have : j = n + 1 := by omega
          exact hm (this ▸ hj)
        simp [h1, hm]
    unfold removePositions
    rw [hc]
    split
    · exact ih (n + 1)
    · rw [ih (n + 1)]

theorem removePositions_cons_erase {α : Type} (s : Nat) (S : List Nat) (l : List α) (n : Nat)
    (hn : n ≤ s) (hS : ∀ j ∈ S, s < j) :
    removePositions (s :: S) l n
      = removePositions (S.map (fun k => k - 1)) (l.eraseIdx (s - n)) n := by
  induction l generalizing n with
  | nil => simp [List.eraseIdx]; rfl
  | cons a as ih =>
    rcases Nat.eq_or_lt_of_le hn with rfl | hlt
    · have hc : ((n :: S).contains n) = true := by simp
      have e1 : removePositions (n :: S) (a :: as) n = removePositions (n :: S) as (n + 1) := by
        conv_lhs => unfold removePositions
        rw [if_pos hc]
      have e2 : (a :: as).eraseIdx (n - n) = as := by
        rw [Nat.sub_self]
        rfl
      rw [e1, e2, removePositions_cons_lt n S as (n + 1) (by omega),
        removePositions_map_sub S as n (fun j hj => by have := hS j hj; omega)]
    · have hc : ((s :: S).contains n) = false := by
        simp only [List.contains_cons, Bool.or_eq_false_iff]
        constructor
        · simp only [beq_eq_false_iff_ne, ne_eq]; omega
        · by_cases hmem : n ∈ S
          · have := hS n hmem; omega
          · simpa using hmem
      have hc2 : ((S.map (fun k => k - 1)).contains n) = false := by
        by_cases hmem : n ∈ S.map (fun k => k - 1)
        · obtain ⟨j, hj, hje⟩ := List.mem_map.mp hmem
          have := hS j hj
          omega
        · simpa using hmem
      have hidx : s - n = (s - (n + 1)) + 1 := by omega
      rw [hidx]
      show removePositions (s :: S) (a :: as) n
        = removePositions (S.map (fun k => k - 1)) (a :: as.eraseIdx (s - (n + 1))) n
      unfold removePositions
      rw [hc, hc2]
      simp only [Bool.false_eq_true, if_false]
      rw [ih (n + 1) (by omega)]

theorem eraseAtIdxs_nil {α : Type} (l : List α) : eraseAtIdxs l [] = l := rfl

theorem foldl_erase_shift {α : Type} (S : List Nat) (m : List α) (c : Nat) :
    ((S.foldl (fun acc k => (acc.1.eraseIdx (k - acc.2), acc.2 + 1)) (m, c + 1)).1)
      = ((S.map (fun k => k - 1)).foldl
          (fun acc k => (acc.1.eraseIdx (k - acc.2), acc.2 + 1)) (m, c)).1 := by
  induction S generalizing m c with
  | nil => rfl
  | cons a S ih =>
    simp only [List.foldl_cons, List.map_cons]
    rw [show a - (c + 1) = (a - 1) - c by omega]
    exact ih _ _

theorem eraseAtIdxs_cons {α : Type} (l : List α) (a : Nat) (S : List Nat) :
    eraseAtIdxs l (a :: S) = eraseAtIdxs (l.eraseIdx a) (S.map (fun k => k - 1)) := by
  unfold eraseAtIdxs
  simp only [List.foldl_cons, Nat.sub_zero]
  exact foldl_erase_shift S _ 0

theorem eraseAtIdxs_sublist {α : Type} (l : List α) (S : List Nat) :
    List.Sublist (eraseAtIdxs l S) l := by
  have main : ∀ (n : Nat) (S : List Nat), S.length ≤ n → ∀ (l : List α),
      List.Sublist (eraseAtIdxs l S) l := by
    intro n
    induction n with
    | zero =>
      intro S hS l
      have hSnil : S = [] := List.length_eq_zero.mp (by omega)
      subst hSnil
      rw [eraseAtIdxs_nil]
    | succ n ih =>
      intro S hS l
      cases S with
      | nil => rw [eraseAtIdxs_nil]
      | cons a S =>
        rw [eraseAtIdxs_cons]
        refine (ih (S.map (fun k => k - 1)) ?_ _).trans (List.eraseIdx_sublist _ _)
        simp only [List.length_map]
        simp only [List.length_cons] at hS
        omega
  exact main S.length S le_rfl l

theorem eraseAtIdxs_eq_removePositions {α : Type} (S : List Nat) (l : List α)
    (hS : List.Pairwise (· < ·) S) :
    eraseAtIdxs l S = removePositions S l 0 := by
  have main : ∀ (n : Nat) (S : List Nat), S.length ≤ n → List.Pairwise (· < ·) S →
      ∀ (l : List α), eraseAtIdxs l S = removePositions S l 0 := by
    intro n
    induction n with
    | zero =>
      intro S hlen _ l
      have hSnil : S = [] := List.length_eq_zero.mp (by omega)
      subst hSnil
      rw [eraseAtIdxs_nil, removePositions_nil]
    | succ n ih =>
      intro S hlen hp l
      cases S with
      | nil => rw [eraseAtIdxs_nil, removePositions_nil]
      | cons s S =>
        have hlt : ∀ j ∈ S, s < j := fun j hj => (List.pairwise_cons.mp hp).1 j hj
        have hp2 : List.Pairwise (· < ·) (S.map (fun k => k - 1)) := by
          rw [List.pairwise_map]
          refine (List.pairwise_cons.mp hp).2.imp_of_mem ?_
          intro a b ha hb hab
          have := hlt a ha
          omega
        rw [eraseAtIdxs_cons,
          ih (S.map (fun k => k - 1))
            (by simp only [List.length_map]; simp only [List.length_cons] at hlen; omega) hp2,
          removePositions_cons_erase s S l 0 (by omega) hlt, Nat.sub_zero]
  exact main S.length S le_rfl hS l

/-! ## Lemmas: the same-origin group -/

theorem nearPt_self (a : KeyPt) (t : ℚ) : nearPt a a t = true := by
  unfold nearPt
  rw [decide_eq_true_eq]
  have h1 : (a.x - a.x) ^ 2 + (a.y - a.y) ^ 2 = 0 := by ring
  rw [h1]
  positivity

theorem mem_sameOriginIdxs (aK : List KeyPt) (t : ℚ) (gm : List DMatch) (i j : Nat) :
    j ∈ sameOriginIdxs aK t gm i ↔
      j < gm.length ∧ i ≤ j ∧
        nearPt (origKp aK (gm.getD i ⟨0, 0, 0⟩)) (origKp aK (gm.getD j ⟨0, 0, 0⟩)) t = true := by
  unfold sameOriginIdxs origKp
  rw [List.mem_filter, List.mem_range]
  simp only [Bool.and_eq_true, decide_eq_true_eq]

theorem self_mem_sameOriginIdxs (aK : List KeyPt) (t : ℚ) (gm : List DMatch) (i : Nat)
    (hi : i < gm.length) : i ∈ sameOriginIdxs aK t gm i :=
  (mem_sameOriginIdxs aK t gm i i).mpr ⟨hi, le_rfl, nearPt_self _ _⟩

theorem sameOriginIdxs_sorted (aK : List KeyPt) (t : ℚ) (gm : List DMatch) (i : Nat) :
    List.Pairwise (· < ·) (sameOriginIdxs aK t gm i) :=
  List.Pairwise.sublist (List.filter_sublist _) (List.pairwise_lt_range _)

theorem sameOriginIdxs_cons (aK : List KeyPt) (t : ℚ) (gm : List DMatch) (i : Nat)
    (hi : i < gm.length) :
    sameOriginIdxs aK t gm i = i :: (sameOriginIdxs aK t gm i).tail ∧
      ∀ j ∈ (sameOriginIdxs aK t gm i).tail, i < j := by
  have hmem := self_mem_sameOriginIdxs aK t gm i hi
  have hsorted := sameOriginIdxs_sorted aK t gm i
  cases h : sameOriginIdxs aK t gm i with
  | nil => rw [h] at hmem; simp at hmem
  | cons a tl =>
    rw [h] at hmem hsorted
    have hbound := (List.pairwise_cons.mp hsorted).1
    have ha : i ≤ a := ((mem_sameOriginIdxs aK t gm i a).mp (h ▸ List.mem_cons_self a tl)).2.1
    rcases List.mem_cons.mp hmem with rfl | hitl
    · exact ⟨rfl, by simpa using hbound⟩
    · have := hbound i hitl
      omega

/-- One resolution-loop iteration on a group of size > 1, written with clean
position removal instead of the shift-adjusted erase sequence. -/
theorem mergeStep_eq (aK fK : List KeyPt) (t : ℚ) (gm : List DMatch) (i : Nat)
    (h1 : 1 < (sameOriginIdxs aK t gm i).length) :
    mergeStep aK fK t gm i =
      if haveSameDestination fK t gm i (sameOriginIdxs aK t gm i) then
        removePositions (sameOriginIdxs aK t gm i).tail
          (gm.set i { gm.getD i ⟨0, 0, 0⟩ with
            distance := ((sameOriginIdxs aK t gm i).map
              (fun j => (gm.getD j ⟨0, 0, 0⟩).distance)).sum /
                (sameOriginIdxs aK t gm i).length }) 0
      else removePositions (sameOriginIdxs aK t gm i) gm 0 := by
  simp only [mergeStep]
  rw [if_neg (by omega)]
  split
  · rw [eraseAtIdxs_eq_removePositions _ _
      (List.Pairwise.sublist (List.tail_sublist _) (sameOriginIdxs_sorted aK t gm i))]
  · rw [eraseAtIdxs_eq_removePositions _ _ (sameOriginIdxs_sorted aK t gm i)]

theorem mergeStep_of_small (aK fK : List KeyPt) (t : ℚ) (gm : List DMatch) (i : Nat)
    (h1 : (sameOriginIdxs aK t gm i).length ≤ 1) : mergeStep aK fK t gm i = gm := by
  simp only [mergeStep]
  rw [if_pos h1]

theorem mergeLoop_eq (aK fK : List KeyPt) (t : ℚ) (gm : List DMatch) (i : Nat) :
    mergeLoop aK fK t gm i =
      if i < gm.length then mergeLoop aK fK t (mergeStep aK fK t gm i) (i + 1) else gm := by
  rw [mergeLoop]
  simp only [dite_eq_ite]

theorem loopContradicts_eq (aK fK : List KeyPt) (t : ℚ) (gm : List DMatch) (i : Nat) :
    loopContradicts aK fK t gm i =
      if i < gm.length then
        (stepContradicts aK fK t gm i ||
          loopContradicts aK fK t (mergeStep aK fK t gm i) (i + 1))
      else false := by
  rw [loopContradicts]
  simp only [dite_eq_ite]

theorem getD_eq_get?D {α : Type} (l : List α) (i : Nat) (d : α) :
    l.getD i d = (l.get? i).getD d := by
  simp [List.getD, List.getD_eq_getElem?_getD]

theorem getD_mem_of_lt {α : Type} (l : List α) (j : Nat) (d : α) (h : j < l.length) :
    l.getD j d ∈ l := by
  rw [getD_eq_get?D, List.get?_eq_get h]
  exact List.get_mem l j h

theorem mean_le (G : List Nat) (f : Nat → ℚ) (T : ℚ) (hG : G ≠ [])
    (h : ∀ j ∈ G, f j ≤ T) : (G.map f).sum / G.length ≤ T := by
  have hlen : 0 < G.length := List.length_pos.mpr hG
  have hlenQ : (0 : ℚ) < G.length := by exact_mod_cast hlen
  rw [div_le_iff₀ hlenQ]
  calc (G.map f).sum ≤ (G.map f).length • T := by
        refine List.sum_le_card_nsmul _ _ ?_
        intro x hx
        obtain ⟨j, hj, rfl⟩ := List.mem_map.mp hx
        exact h j hj
    _ = T * G.length := by
        rw [List.length_map, nsmul_eq_mul]
        ring

theorem mergeStep_dist_le (aK fK : List KeyPt) (t T : ℚ) (gm : List DMatch) (i : Nat)
    (h : ∀ m ∈ gm, m.distance ≤ T) : ∀ m ∈ mergeStep aK fK t gm i, m.distance ≤ T := by
  intro m hm
  by_cases hsmall : (sameOriginIdxs aK t gm i).length ≤ 1
  · rw [mergeStep_of_small aK fK t gm i hsmall] at hm
    exact h m hm
  · rw [mergeStep_eq aK fK t gm i (by omega)] at hm
    split at hm
    · have hm2 := (removePositions_sublist _ _ _).mem hm
      rcases List.mem_or_eq_of_mem_set hm2 with hmem | rfl
      · exact h m hmem
      · show ((sameOriginIdxs aK t gm i).map (fun j => (gm.getD j ⟨0, 0, 0⟩).distance)).sum /
          ((sameOriginIdxs aK t gm i).length : ℚ) ≤ T
        refine mean_le _ _ _ (by intro hnil; rw [hnil] at hsmall; simp at hsmall) ?_
        intro j hj
        have hjlt : j < gm.length := ((mem_sameOriginIdxs aK t gm i j).mp hj).1
        exact h _ (getD_mem_of_lt gm j _ hjlt)
    · exact h m ((removePositions_sublist _ _ _).mem hm)

theorem mergeLoop_dist_le (aK fK : List KeyPt) (t T : ℚ) :
    ∀ (n : Nat) (gm : List DMatch) (i : Nat), gm.length - i ≤ n →
      (∀ m ∈ gm, m.distance ≤ T) → ∀ m ∈ mergeLoop aK fK t gm i, m.distance ≤ T := by
  intro n
  induction n with
  | zero =>
    intro gm i hn h m hm
    rw [mergeLoop_eq, if_neg (by omega)] at hm
    exact h m hm
  | succ n ih =>
    intro gm i hn h m hm
    rw [mergeLoop_eq] at hm
    split at hm
    · rename_i hi
      refine ih (mergeStep aK fK t gm i) (i + 1) ?_ (mergeStep_dist_le aK fK t T gm i h) m hm
      have := mergeStep_length_le aK fK t gm i
      omega
    · exact h m hm

/-! ## Lemmas: origin separation through the resolution loop -/

theorem sepPrefix_zero (aK : List KeyPt) (t : ℚ) (gm : List DMatch) :
    SepPrefix aK t gm 0 := by
  intro p q a b hp
  exact absurd hp (by omega)

theorem origKp_getD_eq (aK : List KeyPt) (gm : List DMatch) (k : Nat) (a : DMatch)
    (h : gm.get? k = some a) : gm.getD k ⟨0, 0, 0⟩ = a := by
  rw [getD_eq_get?D, h]
  rfl

theorem get?_lt_length {α : Type} (l : List α) (k : Nat) (a : α) (h : l.get? k = some a) :
    k < l.length := by
  have : (l.get? k).isSome := by rw [h]; rfl
  exact (get?_isSome_iff l k).mp this

theorem sameOriginIdxs_small_eq (aK : List KeyPt) (t : ℚ) (gm : List DMatch) (i : Nat)
    (hi : i < gm.length) (hsmall : (sameOriginIdxs aK t gm i).length ≤ 1) :
    sameOriginIdxs aK t gm i = [i] := by
  obtain ⟨hG, -⟩ := sameOriginIdxs_cons aK t gm i hi
  cases htl : (sameOriginIdxs aK t gm i).tail with
  | nil => rw [hG, htl]
  | cons x xs =>
    rw [hG, htl] at hsmall
    simp at hsmall

theorem mergeStep_sep (aK fK : List KeyPt) (t : ℚ) (gm : List DMatch) (i : Nat)
    (hi : i < gm.length)
    (hnc : stepContradicts aK fK t gm i = false)
    (hsep : SepPrefix aK t gm i) : SepPrefix aK t (mergeStep aK fK t gm i) (i + 1) := by
  by_cases hsmall : (sameOriginIdxs aK t gm i).length ≤ 1
  · rw [mergeStep_of_small aK fK t gm i hsmall]
    have hmw := sameOriginIdxs_small_eq aK t gm i hi hsmall
    intro p q a b hp hpq hpa hqb
    rcases Nat.lt_or_ge p i with hpi | hpi
    · exact hsep p q a b hpi hpq hpa hqb
    · have hpe : p = i := by omega
      have hq : q ∉ sameOriginIdxs aK t gm i := by
        rw [hmw]
        intro hmem
        have : q = i := by simpa using hmem
        omega
      rw [mem_sameOriginIdxs] at hq
      push_neg at hq
      have hql : q < gm.length := get?_lt_length gm q b hqb
      have hne := hq hql (by omega)
      rw [hpe] at hpa
      rw [origKp_getD_eq aK gm i a hpa, origKp_getD_eq aK gm q b hqb] at hne
      simp only [Bool.not_eq_true] at hne
      exact hne
  · have hlen2 : 1 < (sameOriginIdxs aK t gm i).length := by omega
    have hsd : haveSameDestination fK t gm i (sameOriginIdxs aK t gm i) = true := by
      have hnc2 := hnc
      simp only [stepContradicts] at hnc2
      rw [decide_eq_true hlen2, Bool.true_and] at hnc2
      simpa using hnc2
    rw [mergeStep_eq aK fK t gm i hlen2, if_pos hsd]
    obtain ⟨hG, htail⟩ := sameOriginIdxs_cons aK t gm i hi
    generalize hrep : ({ gm.getD i ⟨0, 0, 0⟩ with
      distance := ((sameOriginIdxs aK t gm i).map
        (fun j => (gm.getD j ⟨0, 0, 0⟩).distance)).sum /
          ((sameOriginIdxs aK t gm i).length : ℚ) } : DMatch) = rep
    have horig : origKp aK rep = origKp aK (gm.getD i ⟨0, 0, 0⟩) := by
      rw [← hrep]
      rfl
    have htakelen : (gm.take i).length = i := by
      rw [List.length_take]
      omega
    have hset : gm.set i rep = (gm.take i ++ [rep]) ++ gm.drop (i + 1) := by
      rw [List.set_eq_take_cons_drop rep hi, List.append_assoc]
      rfl
    have hAlen : (gm.take i ++ [rep]).length = i + 1 := by
      rw [List.length_append, htakelen]
      rfl
    have hdecomp : removePositions (sameOriginIdxs aK t gm i).tail (gm.set i rep) 0
        = (gm.take i ++ [rep]) ++
            removePositions (sameOriginIdxs aK t gm i).tail (gm.drop (i + 1)) (i + 1) := by
      rw [hset, removePositions_append _ _ _ 0
        (by intro j hj; rw [hAlen]; have := htail j hj; omega)]
      rw [hAlen, Nat.zero_add]
    rw [hdecomp]
    intro p q a b hp hpq hpa hqb
    have hgetA : ∀ (k : Nat) (c : DMatch), k < i →
        (((gm.take i ++ [rep]) ++
          removePositions (sameOriginIdxs aK t gm i).tail (gm.drop (i + 1)) (i + 1)).get? k
            = some c) → gm.get? k = some c := by
      intro k c hk hc
      rw [List.get?_append (by rw [hAlen]; omega),
        List.get?_append (by rw [htakelen]; omega), List.get?_take hk] at hc
      exact hc
    have hgetI : (((gm.take i ++ [rep]) ++
        removePositions (sameOriginIdxs aK t gm i).tail (gm.drop (i + 1)) (i + 1)).get? i)
          = some rep := by
      rw [List.get?_append (by rw [hAlen]; omega),
        List.get?_append_right (by rw [htakelen])]
      rw [htakelen, Nat.sub_self]
      rfl
    obtain ⟨mi, hmi⟩ : ∃ mi, gm.get? i = some mi := by
      cases h : gm.get? i with
      | none =>
        exfalso
        have := List.get?_eq_none.mp h
        omega
      | some mi => exact ⟨mi, rfl⟩
    have horig2 : origKp aK rep = origKp aK mi := by
      rw [horig, origKp_getD_eq aK gm i mi hmi]
    rcases Nat.lt_or_ge q (i + 1) with hqlt | hqge
    · have hpa2 : gm.get? p = some a := hgetA p a (by omega) hpa
      rcases Nat.lt_or_ge q i with hqi | hqi
      · exact hsep p q a b (by omega) hpq hpa2 (hgetA q b hqi hqb)
      · have hqe : q = i := by omega
        have hb : b = rep := by
          rw [hqe, hgetI] at hqb
          exact (Option.some_inj.mp hqb).symm
        rw [hb, horig2]
        exact hsep p i a mi (by omega) (by omega) hpa2 hmi
    · have hqb2 : (removePositions (sameOriginIdxs aK t gm i).tail (gm.drop (i + 1))
          (i + 1)).get? (q - (i + 1)) = some b := by
        rw [List.get?_append_right (by rw [hAlen]; omega)] at hqb
        rw [hAlen] at hqb
        exact hqb
      have hbR := List.get?_mem hqb2
      obtain ⟨j, hj, hnj⟩ := removePositions_mem _ _ _ b hbR
      rw [List.get?_drop] at hj
      rcases Nat.lt_or_ge p i with hpi | hpi
      · exact hsep p (i + 1 + j) a b hpi (by omega) (hgetA p a hpi hpa) hj
      · have hpe : p = i := by omega
        have ha : a = rep := by
          rw [hpe, hgetI] at hpa
          exact (Option.some_inj.mp hpa).symm
        have hnotG : (i + 1 + j) ∉ sameOriginIdxs aK t gm i := by
          rw [hG]
          intro hmem
          rcases List.mem_cons.mp hmem with he | htl
          · omega
          · exact hnj htl
        rw [mem_sameOriginIdxs] at hnotG
        push_neg at hnotG
        have hlt2 : i + 1 + j < gm.length := get?_lt_length gm _ b hj
        have hne := hnotG hlt2 (by omega)
        rw [origKp_getD_eq aK gm (i + 1 + j) b hj] at hne
        rw [ha, horig]
        simp only [Bool.not_eq_true] at hne
        exact hne

theorem sepPrefix_to_sepAll (aK : List KeyPt) (t : ℚ) (gm : List DMatch)
    (h : SepPrefix aK t gm gm.length) : SepAll aK t gm := by
  rw [SepAll, List.pairwise_iff_get]
  intro p q hpq
  exact h p.val q.val _ _ p.isLt hpq (List.get?_eq_get p.isLt) (List.get?_eq_get q.isLt)

theorem mergeLoop_sep (aK fK : List KeyPt) (t : ℚ) :
    ∀ (n : Nat) (gm : List DMatch) (i : Nat), gm.length - i ≤ n →
      loopContradicts aK fK t gm i = false → SepPrefix aK t gm i →
      SepAll aK t (mergeLoop aK fK t gm i) := by
  intro n
  induction n with
  | zero =>
    intro gm i hn hc hs
    rw [mergeLoop_eq, if_neg (by omega)]
    refine sepPrefix_to_sepAll aK t gm ?_
    intro p q a b hp hpq hpa hqb
    exact hs p q a b (by omega) hpq hpa hqb
  | succ n ih =>
    intro gm i hn hc hs
    rw [mergeLoop_eq]
    split
    · rename_i hi
      rw [loopContradicts_eq, if_pos hi] at hc
      have hc2 : stepContradicts aK fK t gm i = false ∧
          loopContradicts aK fK t (mergeStep aK fK t gm i) (i + 1) = false := by
        constructor <;> [skip; skip] <;> simp_all
      refine ih (mergeStep aK fK t gm i) (i + 1) ?_ hc2.2
        (mergeStep_sep aK fK t gm i hi hc2.1 hs)
      have := mergeStep_length_le aK fK t gm i
      omega
    · rename_i hi
      refine sepPrefix_to_sepAll aK t gm ?_
      intro p q a b hp hpq hpa hqb
      exact hs p q a b (by omega) hpq hpa hqb

theorem sameOriginIdxs_of_sepAll (aK : List KeyPt) (t : ℚ) (gm : List DMatch)
    (hall : SepAll aK t gm) (i : Nat) (hi : i < gm.length) :
    sameOriginIdxs aK t gm i = [i] := by
  obtain ⟨hG, htail⟩ := sameOriginIdxs_cons aK t gm i hi
  have hpg := List.pairwise_iff_get.mp hall
  cases htl : (sameOriginIdxs aK t gm i).tail with
  | nil => rw [hG, htl]
  | cons x xs =>
    exfalso
    have hx : x ∈ (sameOriginIdxs aK t gm i).tail := by
      rw [htl]
      exact List.mem_cons_self x xs
    have hxi : i < x := htail x hx
    have hxmem : x ∈ sameOriginIdxs aK t gm i := by
      rw [hG]
      exact List.mem_cons_of_mem _ hx
    have hm := (mem_sameOriginIdxs aK t gm i x).mp hxmem
    have hfalse := hpg ⟨i, hi⟩ ⟨x, hm.1⟩ hxi
    have e1 : gm.getD i ⟨0, 0, 0⟩ = gm.get ⟨i, hi⟩ :=
      origKp_getD_eq aK gm i _ (List.get?_eq_get hi)
    have e2 : gm.getD x ⟨0, 0, 0⟩ = gm.get ⟨x, hm.1⟩ :=
      origKp_getD_eq aK gm x _ (List.get?_eq_get hm.1)
    have htrue := hm.2.2
    rw [e1, e2] at htrue
    rw [htrue] at hfalse
    exact absurd hfalse (by simp)

theorem mergeLoop_of_sepAll (aK fK : List KeyPt) (t : ℚ) (gm : List DMatch)
    (hall : SepAll aK t gm) : ∀ (n i : Nat), gm.length - i ≤ n → mergeLoop aK fK t gm i = gm := by
  intro n
  induction n with
  | zero =>
    intro i hn
    rw [mergeLoop_eq, if_neg (by omega)]
  | succ n ih =>
    intro i hn
    rw [mergeLoop_eq]
    split
    · rename_i hi
      rw [mergeStep_of_small aK fK t gm i
        (by rw [sameOriginIdxs_of_sepAll aK t gm hall i hi]; simp)]
      exact ih (i + 1) (by omega)
    · rfl

theorem thresholdFilter_dist_le (l : List DMatch) (T : ℚ) :
    ∀ m ∈ thresholdFilter l T, m.distance ≤ T := by
  intro m hm
  have := List.mem_filter.mp hm
  exact of_decide_eq_true this.2

theorem thresholdFilter_eq_self (l : List DMatch) (T : ℚ) (h : ∀ m ∈ l, m.distance ≤ T) :
    thresholdFilter l T = l := by
  unfold thresholdFilter
  refine List.filter_eq_self.mpr ?_
  intro m hm
  exact decide_eq_true (h m hm)

/-! ## Lemmas: depth image access -/

theorem getD_set_same {α : Type} (l : List α) (n : Nat) (a d : α) :
    (l.set n a).getD n d = if n < l.length then a else d := by
  induction l generalizing n with
  | nil => simp [List.set]
  | cons x xs ih =>
    cases n with
    | zero => simp [List.set]
    | succ n =>
      simp only [List.set, List.getD_cons_succ, List.length_cons, ih]
      by_cases hlt : n < xs.length
      · rw [if_pos hlt, if_pos (by omega)]
      · rw [if_neg hlt, if_neg (by omega)]

theorem getD_set_other {α : Type} (l : List α) (n m : Nat) (a d : α) (h : m ≠ n) :
    (l.set n a).getD m d = l.getD m d := by
  induction l generalizing n m with
  | nil => simp [List.set]
  | cons x xs ih =>
    cases n with
    | zero =>
      cases m with
      | zero => omega
      | succ m => simp [List.set]
    | succ n =>
      cases m with
      | zero => simp [List.set]
      | succ m =>
        simp only [List.set, List.getD_cons_succ]
        exact ih n m (by omega)

theorem getD_nil_eq {α : Type} (n : Nat) (d : α) : ([] : List α).getD n d = d := by
  simp [List.getD]

theorem getD_eq_default_of_le {α : Type} (l : List α) (n : Nat) (d : α)
    (h : l.length ≤ n) : l.getD n d = d := by
  rw [getD_eq_get?D, List.get?_eq_none.mpr h]
  rfl

theorem readPix_writePix_other (img : List (List Nat)) (x y : Int) (v : Nat) (a b : Int)
    (h : (a, b) ≠ (x, y)) :
    readPix (writePix img x y v) a b = readPix img a b := by
  unfold readPix writePix
  by_cases hxy : 0 ≤ x ∧ 0 ≤ y
  · simp only [if_pos hxy]
    by_cases hab : 0 ≤ a ∧ 0 ≤ b
    · simp only [if_pos hab]
      by_cases hby : b = y
      · have hax : a ≠ x := by
          intro hax
          exact h (by rw [hax, hby])
        subst hby
        rw [getD_set_same]
        split
        · rw [getD_set_other _ _ _ _ _ (by omega)]
        · rename_i hge
          rw [getD_eq_default_of_le img b.toNat [] (by omega), getD_nil_eq]
      · have hbt : b.toNat ≠ y.toNat := by omega
        rw [getD_set_other _ _ _ _ _ hbt]
    · simp only [if_neg hab]
  · simp only [if_neg hxy]

theorem readPix_writePix_self_or_zero (img : List (List Nat)) (x y : Int) (v : Nat) :
    readPix (writePix img x y v) x y = v ∨ readPix (writePix img x y v) x y = 0 := by
  unfold readPix writePix
  by_cases hxy : 0 ≤ x ∧ 0 ≤ y
  · simp only [if_pos hxy]
    rw [getD_set_same]
    split
    · rw [getD_set_same]
      split
      · exact Or.inl rfl
      · right
        rfl
    · right
      exact getD_nil_eq _ _
  · simp only [if_neg hxy]
    right
    trivial

theorem readPix_nonneg_bounds (img : List (List Nat)) (x y : Int)
    (h : readPix img x y ≠ 0) :
    0 ≤ x ∧ 0 ≤ y ∧ y.toNat < img.length ∧ x.toNat < (img.getD y.toNat []).length := by
  unfold readPix at h
  by_cases hxy : 0 ≤ x ∧ 0 ≤ y
  · rw [if_pos hxy] at h
    refine ⟨hxy.1, hxy.2, ?_, ?_⟩
    · by_contra hge
      rw [getD_eq_default_of_le img y.toNat [] (by omega), getD_nil_eq] at h
      exact h rfl
    · by_contra hge
      rw [getD_eq_default_of_le _ x.toNat 0 (by omega)] at h
      exact h rfl
  · rw [if_neg hxy] at h
    exact absurd rfl h

theorem readPix_writePix_self (img : List (List Nat)) (x y : Int) (v : Nat)
    (h : readPix img x y ≠ 0) :
    readPix (writePix img x y v) x y = v := by
  obtain ⟨hx, hy, hylen, hxlen⟩ := readPix_nonneg_bounds img x y h
  unfold readPix writePix
  rw [if_pos ⟨hx, hy⟩, if_pos ⟨hx, hy⟩, getD_set_same, if_pos hylen, getD_set_same,
    if_pos hxlen]

/-! ## Lemmas: the spatial search of the depth resolver -/

theorem mem_pixList (img : List (List Nat)) (x y v : Nat) :
    (x, y, v) ∈ pixList img ↔ ∃ row, img.get? y = some row ∧ row.get? x = some v := by
  unfold pixList
  rw [List.mem_flatten]
  constructor
  · rintro ⟨s, hs, hmem⟩
    obtain ⟨yr, hyr, rfl⟩ := List.mem_map.mp hs
    obtain ⟨xv, hxv, heq⟩ := List.mem_map.mp hmem
    obtain ⟨rfl, rfl, rfl⟩ : xv.1 = x ∧ yr.1 = y ∧ xv.2 = v := by
      refine ⟨congrArg Prod.fst heq, ?_, ?_⟩
      · have := congrArg (fun p => p.2.1) heq
        exact this
      · have := congrArg (fun p => p.2.2) heq
        exact this
    refine ⟨yr.2, ?_, ?_⟩
    · exact List.mem_enum_iff_get?.mp (by simpa using hyr)
    · exact List.mem_enum_iff_get?.mp (by simpa using hxv)
  · rintro ⟨row, hrow, hval⟩
    refine ⟨row.enum.map (fun xv => (xv.1, y, xv.2)), ?_, ?_⟩
    · refine List.mem_map.mpr ⟨(y, row), ?_, rfl⟩
      exact List.mem_enum_iff_get?.mpr hrow
    · refine List.mem_map.mpr ⟨(x, v), ?_, rfl⟩
      exact List.mem_enum_iff_get?.mpr hval

theorem readPix_natCast (img : List (List Nat)) (x y : Nat) :
    readPix img (x : Int) (y : Int) = (img.getD y []).getD x 0 := by
  unfold readPix
  rw [if_pos ⟨by omega, by omega⟩, Int.toNat_natCast, Int.toNat_natCast]

theorem readPix_of_mem_pixList (img : List (List Nat)) (x y v : Nat)
    (h : (x, y, v) ∈ pixList img) : readPix img (x : Int) (y : Int) = v := by
  obtain ⟨row, hrow, hval⟩ := (mem_pixList img x y v).mp h
  rw [readPix_natCast, getD_eq_get?D img y [], hrow, Option.getD_some,
    getD_eq_get?D row x 0, hval, Option.getD_some]

theorem mem_pixList_of_readPix (img : List (List Nat)) (x y : Nat)
    (h : (img.getD y []).getD x 0 ≠ 0) :
    (x, y, (img.getD y []).getD x 0) ∈ pixList img := by
  refine (mem_pixList img x y _).mpr ?_
  have hy : y < img.length := by
    by_contra hge
    rw [getD_eq_default_of_le img y [] (by omega), getD_nil_eq] at h
    exact h rfl
  have hx : x < (img.getD y []).length := by
    by_contra hge
    rw [getD_eq_default_of_le _ x 0 (by omega)] at h
    exact h rfl
  refine ⟨img.getD y [], ?_, ?_⟩
  · rw [getD_eq_get?D, List.get?_eq_get hy]
    rfl
  · have hg := List.get?_eq_get hx
    rw [hg]
    congr 1
    rw [getD_eq_get?D (img.getD y []) x 0, hg, Option.getD_some]

theorem listMinN_eq_none_iff (l : List Nat) : listMinN l = none ↔ l = [] := by
  cases l with
  | nil => simp [listMinN]
  | cons a as =>
    simp only [listMinN]
    cases listMinN as <;> simp

theorem listMinN_mem (l : List Nat) (a : Nat) (h : listMinN l = some a) : a ∈ l := by
  induction l generalizing a with
  | nil => simp [listMinN] at h
  | cons x xs ih =>
    simp only [listMinN] at h
    cases hm : listMinN xs with
    | none =>
      rw [hm] at h
      simp at h
      simp [h]
    | some b =>
      rw [hm] at h
      simp only [Option.some_inj] at h
      rcases min_cases x b with ⟨he, -⟩ | ⟨he, -⟩
      · rw [← h, he]
        simp
      · rw [← h, he]
        exact List.mem_cons_of_mem x (ih b hm)

theorem listMinN_le (l : List Nat) (a : Nat) (h : listMinN l = some a) :
    ∀ b ∈ l, a ≤ b := by
  induction l generalizing a with
  | nil => simp
  | cons x xs ih =>
    intro b hb
    simp only [listMinN] at h
    cases hm : listMinN xs with
    | none =>
      rw [hm] at h
      have hxs : xs = [] := (listMinN_eq_none_iff xs).mp hm
      simp only [Option.some_inj] at h
      subst hxs
      rcases List.mem_cons.mp hb with rfl | hmem
      · omega
      · simp at hmem
    | some c =>
      rw [hm] at h
      simp only [Option.some_inj] at h
      rcases List.mem_cons.mp hb with rfl | hmem
      · omega
      · have := ih c hm b hmem
        omega

theorem listMinN_isSome_of_mem (l : List Nat) (a : Nat) (h : a ∈ l) :
    ∃ b, listMinN l = some b := by
  cases hm : listMinN l with
  | none =>
    rw [listMinN_eq_none_iff] at hm
    subst hm
    simp at h
  | some b => exact ⟨b, rfl⟩

theorem withinOuter_self (dsq : Nat) : withinOuter dsq dsq = true := by
  unfold withinOuter
  rw [Bool.or_eq_true, decide_eq_true_eq]
  left
  omega

theorem nearestNZ_isSome (img : List (List Nat)) (cx cy : Int) (maxD x y v : Nat)
    (hmem : (x, y, v) ∈ pixList img) (hv : v ≠ 0) (hd : dSq cx cy x y ≤ maxD ^ 2) :
    ∃ d, nearestNZDistSq img cx cy maxD = some d := by
  refine listMinN_isSome_of_mem _ (dSq cx cy x y) ?_
  refine List.mem_filterMap.mpr ⟨(x, y, v), hmem, ?_⟩
  rw [if_pos ⟨hv, hd⟩]

theorem nearest_pixel_exists (img : List (List Nat)) (cx cy : Int) (maxD dsq : Nat)
    (h : nearestNZDistSq img cx cy maxD = some dsq) :
    ∃ x y v, (x, y, v) ∈ pixList img ∧ v ≠ 0 ∧ dSq cx cy x y = dsq := by
  have hmem := listMinN_mem _ _ h
  obtain ⟨p, hp, hf⟩ := List.mem_filterMap.mp hmem
  by_cases hc : p.2.2 ≠ 0 ∧ dSq cx cy p.1 p.2.1 ≤ maxD ^ 2
  · rw [if_pos hc] at hf
    exact ⟨p.1, p.2.1, p.2.2, by simpa using hp, hc.1, Option.some_inj.mp hf⟩
  · rw [if_neg hc] at hf
    simp at hf

theorem ringMin_isSome (img : List (List Nat)) (cx cy : Int) (maxD dsq : Nat)
    (h : nearestNZDistSq img cx cy maxD = some dsq) :
    ∃ v, ringMinNonZero img cx cy dsq = some v := by
  obtain ⟨x, y, v, hmem, hv, hd⟩ := nearest_pixel_exists img cx cy maxD dsq h
  refine listMinN_isSome_of_mem _ v ?_
  refine List.mem_filterMap.mpr ⟨(x, y, v), hmem, ?_⟩
  show (if v ≠ 0 ∧ dsq ≤ dSq cx cy x y ∧ withinOuter (dSq cx cy x y) dsq then some v
    else none) = some v
  rw [if_pos ⟨hv, by omega, by rw [hd]; exact withinOuter_self dsq⟩]

theorem ringMin_pixel_exists (img : List (List Nat)) (cx cy : Int) (dsq v : Nat)
    (h : ringMinNonZero img cx cy dsq = some v) :
    ∃ x y, (x, y, v) ∈ pixList img ∧ v ≠ 0 := by
  have hmem := listMinN_mem _ _ h
  obtain ⟨p, hp, hf⟩ := List.mem_filterMap.mp hmem
  by_cases hc : p.2.2 ≠ 0 ∧ dsq ≤ dSq cx cy p.1 p.2.1 ∧ withinOuter (dSq cx cy p.1 p.2.1) dsq
  · rw [if_pos hc] at hf
    have hveq : p.2.2 = v := Option.some_inj.mp hf
    exact ⟨p.1, p.2.1, by rw [← hveq]; simpa using hp, by rw [← hveq]; exact hc.1⟩
  · rw [if_neg hc] at hf
    simp at hf

theorem ringMin_nonzero (img : List (List Nat)) (cx cy : Int) (dsq v : Nat)
    (h : ringMinNonZero img cx cy dsq = some v) : v ≠ 0 :=
  (ringMin_pixel_exists img cx cy dsq v h).choose_spec.choose_spec.2

/-! ## Lemmas: depth repair -/

theorem ratRound_cases (q : ℚ) : ratRound q = ⌊q⌋ ∨ ratRound q = ⌊q⌋ + 1 := by
  unfold ratRound
  split_ifs <;> simp

theorem ratTrunc_cases (q : ℚ) : ratTrunc q = ⌊q⌋ ∨ ratTrunc q = ⌊q⌋ + 1 := by
  unfold ratTrunc
  split_ifs with h
  · left
    rfl
  · have hc : -⌊-q⌋ = ⌈q⌉ := by
      rw [Int.floor_neg, neg_neg]
    have h1 : ⌊q⌋ ≤ ⌈q⌉ := Int.floor_le_ceil q
    have h2 : ⌈q⌉ ≤ ⌊q⌋ + 1 := Int.ceil_le_floor_add_one q
    rw [hc]
    omega

theorem trunc_round_sq_le_one (q : ℚ) : (ratTrunc q - ratRound q) ^ 2 ≤ 1 := by
  rcases ratTrunc_cases q with h1 | h1 <;> rcases ratRound_cases q with h2 | h2 <;>
    rw [h1, h2] <;> ring_nf <;> norm_num

theorem nearest_some_at_round (img : List (List Nat)) (kp : KeyPt)
    (h : readPix img (ratRound kp.x) (ratRound kp.y) ≠ 0) :
    ∃ d, nearestNZDistSq img (ratTrunc kp.x) (ratTrunc kp.y) 100 = some d := by
  obtain ⟨hx, hy, hylen, hxlen⟩ := readPix_nonneg_bounds img _ _ h
  have hval : (img.getD (ratRound kp.y).toNat []).getD (ratRound kp.x).toNat 0 ≠ 0 := by
    unfold readPix at h
    rw [if_pos ⟨hx, hy⟩] at h
    exact h
  have hmem := mem_pixList_of_readPix img (ratRound kp.x).toNat (ratRound kp.y).toNat hval
  refine nearestNZ_isSome img _ _ 100 _ _ _ hmem hval ?_
  unfold dSq
  have hax : (((ratRound kp.x).toNat : Int)) = ratRound kp.x := Int.toNat_of_nonneg hx
  have hby : (((ratRound kp.y).toNat : Int)) = ratRound kp.y := Int.toNat_of_nonneg hy
  rw [hax, hby, Int.toNat_le]
  have b1 := trunc_round_sq_le_one kp.x
  have b2 := trunc_round_sq_le_one kp.y
  have hcast : (((100 : Nat) ^ 2 : Nat) : Int) = 10000 := by norm_num
  rw [hcast]
  linarith

theorem repairAt_readPix_other (img : List (List Nat)) (kp : KeyPt) (a b : Int)
    (h : (a, b) ≠ (ratRound kp.x, ratRound kp.y)) :
    readPix (repairAt img kp) a b = readPix img a b := by
  unfold repairAt
  exact readPix_writePix_other img _ _ _ a b h

theorem repairAt_preserves_nonzero (img : List (List Nat)) (kp : KeyPt) (a b : Int)
    (h : readPix img a b ≠ 0) : readPix (repairAt img kp) a b ≠ 0 := by
  by_cases hw : (a, b) = (ratRound kp.x, ratRound kp.y)
  · have ha : a = ratRound kp.x := congrArg Prod.fst hw
    have hb : b = ratRound kp.y := congrArg Prod.snd hw
    subst ha
    subst hb
    obtain ⟨dsq, hnear⟩ := nearest_some_at_round img kp h
    obtain ⟨v, hring⟩ := ringMin_isSome img _ _ 100 dsq hnear
    have hv := ringMin_nonzero img _ _ dsq v hring
    have hrw : repairAt img kp = writePix img (ratRound kp.x) (ratRound kp.y) v := by
      unfold repairAt
      rw [hnear]
      show writePix img (ratRound kp.x) (ratRound kp.y)
        ((ringMinNonZero img (ratTrunc kp.x) (ratTrunc kp.y) dsq).getD 0) = _
      rw [hring]
      rfl
    rw [hrw, readPix_writePix_self img _ _ v h]
    exact hv
  · rw [repairAt_readPix_other img kp a b hw]
    exact h

theorem repairAt_provenance (img : List (List Nat)) (kp : KeyPt) (a b : Int)
    (h : readPix (repairAt img kp) a b ≠ 0) :
    ∃ c d : Int, readPix img c d = readPix (repairAt img kp) a b ∧ readPix img c d ≠ 0 := by
  by_cases hw : (a, b) = (ratRound kp.x, ratRound kp.y)
  · have ha : a = ratRound kp.x := congrArg Prod.fst hw
    have hb : b = ratRound kp.y := congrArg Prod.snd hw
    subst ha
    subst hb
    cases hnear : nearestNZDistSq img (ratTrunc kp.x) (ratTrunc kp.y) 100 with
    | none =>
      exfalso
      have hrw : repairAt img kp = writePix img (ratRound kp.x) (ratRound kp.y) 0 := by
        unfold repairAt
        rw [hnear]
      rw [hrw] at h
      rcases readPix_writePix_self_or_zero img (ratRound kp.x) (ratRound kp.y) 0 with h0 | h0 <;>
        exact h h0
    | some dsq =>
      cases hring : ringMinNonZero img (ratTrunc kp.x) (ratTrunc kp.y) dsq with
      | none =>
        exfalso
        have hrw : repairAt img kp = writePix img (ratRound kp.x) (ratRound kp.y) 0 := by
          unfold repairAt
          rw [hnear]
          show writePix img (ratRound kp.x) (ratRound kp.y)
            ((ringMinNonZero img (ratTrunc kp.x) (ratTrunc kp.y) dsq).getD 0) = _
          rw [hring]
          rfl
        rw [hrw] at h
        rcases readPix_writePix_self_or_zero img (ratRound kp.x) (ratRound kp.y) 0 with h0 | h0 <;>
          exact h h0
      | some v =>
        have hrw : repairAt img kp = writePix img (ratRound kp.x) (ratRound kp.y) v := by
          unfold repairAt
          rw [hnear]
          show writePix img (ratRound kp.x) (ratRound kp.y)
            ((ringMinNonZero img (ratTrunc kp.x) (ratTrunc kp.y) dsq).getD 0) = _
          rw [hring]
          rfl
        obtain ⟨x0, y0, hmem, hv0⟩ := ringMin_pixel_exists img _ _ dsq v hring
        have hread0 := readPix_of_mem_pixList img x0 y0 v hmem
        rw [hrw] at h ⊢
        rcases readPix_writePix_self_or_zero img (ratRound kp.x) (ratRound kp.y) v with h0 | h0
        · rw [h0]
          exact ⟨(x0 : Int), (y0 : Int), hread0, by rw [hread0]; exact hv0⟩
        · exact absurd h0 h
  · rw [repairAt_readPix_other img kp a b hw] at h ⊢
    exact ⟨a, b, rfl, h⟩

theorem fixMatches_snd_cons (m : DMatch) (ms : List DMatch) (fK : List KeyPt)
    (img : List (List Nat)) :
    (fixMatchesDepthOrDrop (m :: ms) fK img).2 =
      (fixMatchesDepthOrDrop ms fK (repairAt img (kpAt fK m.trainIdx))).2 := by
  simp only [fixMatchesDepthOrDrop]
  split <;> rfl

theorem fixMatches_preserves_nonzero (fK : List KeyPt) :
    ∀ (ms : List DMatch) (img : List (List Nat)) (a b : Int), readPix img a b ≠ 0 →
      readPix (fixMatchesDepthOrDrop ms fK img).2 a b ≠ 0 := by
  intro ms
  induction ms with
  | nil =>
    intro img a b h
    exact h
  | cons m ms ih =>
    intro img a b h
    rw [fixMatches_snd_cons]
    exact ih _ a b (repairAt_preserves_nonzero img _ a b h)

theorem fixMatches_untouched (fK : List KeyPt) :
    ∀ (ms : List DMatch) (img : List (List Nat)) (a b : Int),
      (∀ m ∈ ms, (ratRound (kpAt fK m.trainIdx).x, ratRound (kpAt fK m.trainIdx).y) ≠ (a, b)) →
      readPix (fixMatchesDepthOrDrop ms fK img).2 a b = readPix img a b := by
  intro ms
  induction ms with
  | nil =>
    intro img a b h
    rfl
  | cons m ms ih =>
    intro img a b h
    rw [fixMatches_snd_cons, ih _ a b (fun m2 hm2 => h m2 (List.mem_cons_of_mem m hm2)),
      repairAt_readPix_other img _ a b]
    intro he
    exact h m (List.mem_cons_self m ms) he.symm

theorem fixMatches_provenance (fK : List KeyPt) :
    ∀ (ms : List DMatch) (img : List (List Nat)) (a b : Int),
      readPix (fixMatchesDepthOrDrop ms fK img).2 a b ≠ 0 →
      ∃ c d : Int, readPix img c d = readPix (fixMatchesDepthOrDrop ms fK img).2 a b ∧
        readPix img c d ≠ 0 := by
  intro ms
  induction ms with
  | nil =>
    intro img a b h
    exact ⟨a, b, rfl, h⟩
  | cons m ms ih =>
    intro img a b h
    rw [fixMatches_snd_cons] at h ⊢
    obtain ⟨c, d, hc, hcz⟩ := ih _ a b h
    obtain ⟨e, f, he, hez⟩ := repairAt_provenance img _ c d hcz
    exact ⟨e, f, by rw [he, hc], hez⟩

theorem fixMatches_sublist (fK : List KeyPt) :
    ∀ (ms : List DMatch) (img : List (List Nat)),
      List.Sublist (fixMatchesDepthOrDrop ms fK img).1 ms := by
  intro ms
  induction ms with
  | nil =>
    intro img
    exact List.Sublist.refl []
  | cons m ms ih =>
    intro img
    simp only [fixMatchesDepthOrDrop]
    split
    · exact (ih _).cons m
    · exact (ih _).cons₂ m

theorem fixMatches_out_nonzero (fK : List KeyPt) :
    ∀ (ms : List DMatch) (img : List (List Nat)) (m : DMatch),
      m ∈ (fixMatchesDepthOrDrop ms fK img).1 →
      readPix (fixMatchesDepthOrDrop ms fK img).2
        (ratRound (kpAt fK m.trainIdx).x) (ratRound (kpAt fK m.trainIdx).y) ≠ 0 := by
  intro ms
  induction ms with
  | nil =>
    intro img m hm
    simp [fixMatchesDepthOrDrop] at hm
  | cons hd ms ih =>
    intro img m hm
    rw [fixMatches_snd_cons]
    simp only [fixMatchesDepthOrDrop] at hm
    split at hm
    · exact ih _ m hm
    · rename_i hkeep
      rcases List.mem_cons.mp hm with rfl | hm2
      · exact fixMatches_preserves_nonzero fK ms _ _ _ hkeep
      · exact ih _ m hm2

/-! ## Lemmas: the feature-memory save loop -/

theorem saveInliers_isSome_iff (inl : List Nat) (pos3d : List (ℚ × ℚ × ℚ)) (cp : Pose)
    (gms : List DMatch) (kps : List KeyPt) (descs : List Descriptor)
    (img : List (List Nat)) :
    (saveInliersToMemory inl pos3d cp gms kps descs img).isSome ↔
      ∀ n ∈ inl, n < pos3d.length ∧
        ∃ m, gms.get? n = some m ∧ m.trainIdx < kps.length ∧ m.trainIdx < descs.length := by
  induction inl with
  | nil => simp [saveInliersToMemory]
  | cons i rest ih =>
    simp only [saveInliersToMemory, checkedAt, List.mem_cons, forall_eq_or_imp,
      Option.bind_eq_bind]
    cases h1 : pos3d.get? i with
    | none =>
      simp only [h1, Option.none_bind, Option.isSome_none, Bool.false_eq_true, false_iff]
      intro hall
      have hlt := hall.1.1
      have := List.get?_eq_none.mp h1
      omega
    | some p3 =>
      cases h2 : gms.get? i with
      | none =>
        simp only [h1, h2, Option.some_bind, Option.none_bind, Option.isSome_none,
          Bool.false_eq_true, false_iff]
        intro hall
        obtain ⟨-, m, hm, -⟩ := hall.1
        exact absurd hm (by simp)
      | some m =>
        cases h3 : kps.get? m.trainIdx with
        | none =>
          simp only [h1, h2, h3, Option.some_bind, Option.none_bind, Option.isSome_none,
            Bool.false_eq_true, false_iff]
          intro hall
          obtain ⟨-, m2, hm2, hk2, -⟩ := hall.1
          have hmm : m2 = m := Option.some_inj.mp hm2.symm
          subst hmm
          have := List.get?_eq_none.mp h3
          omega
        | some kp =>
          cases h4 : descs.get? m.trainIdx with
          | none =>
            simp only [h1, h2, h3, h4, Option.some_bind, Option.none_bind, Option.isSome_none,
              Bool.false_eq_true, false_iff]
            intro hall
            obtain ⟨-, m2, hm2, -, hd2⟩ := hall.1
            have hmm : m2 = m := Option.some_inj.mp hm2.symm
            subst hmm
            have := List.get?_eq_none.mp h4
            omega
          | some d =>
            simp only [h1, h2, h3, h4, Option.some_bind]
            constructor
            · intro hs
              refine ⟨⟨get?_lt_length _ _ _ h1,
                m, rfl, get?_lt_length _ _ _ h3, get?_lt_length _ _ _ h4⟩, ?_⟩
              rw [← ih]
              cases hrest : saveInliersToMemory rest pos3d cp gms kps descs img with
              | none =>
                rw [hrest] at hs
                simp at hs
              | some fs => simp
            · rintro ⟨-, hrest⟩
              rw [← ih] at hrest
              cases hr2 : saveInliersToMemory rest pos3d cp gms kps descs img with
              | none =>
                rw [hr2] at hrest
                simp at hrest
              | some fs => simp

theorem saveInliers_content (inl : List Nat) (pos3d : List (ℚ × ℚ × ℚ)) (cp : Pose)
    (gms : List DMatch) (kps : List KeyPt) (descs : List Descriptor)
    (img : List (List Nat)) :
    ∀ (fs : List StoredFeature),
      saveInliersToMemory inl pos3d cp gms kps descs img = some fs →
      ∀ (k a : Nat), inl.get? k = some a →
        ∃ m feat, gms.get? a = some m ∧ fs.get? k = some feat ∧
          kps.get? m.trainIdx = some feat.keypoint ∧
          descs.get? m.trainIdx = some feat.descriptor := by
  induction inl with
  | nil =>
    intro fs hsave k a hk
    simp at hk
  | cons i rest ih =>
    intro fs hsave k a hk
    simp only [saveInliersToMemory, checkedAt, Option.bind_eq_bind] at hsave
    cases h1 : pos3d.get? i with
    | none =>
      rw [h1] at hsave
      simp at hsave
    | some p3 =>
      rw [h1] at hsave
      simp only [Option.some_bind] at hsave
      cases h2 : gms.get? i with
      | none =>
        rw [h2] at hsave
        simp at hsave
      | some m =>
        rw [h2] at hsave
        simp only [Option.some_bind] at hsave
        cases h3 : kps.get? m.trainIdx with
        | none =>
          rw [h3] at hsave
          simp at hsave
        | some kp =>
          rw [h3] at hsave
          simp only [Option.some_bind] at hsave
          cases h4 : descs.get? m.trainIdx with
          | none =>
            rw [h4] at hsave
            simp at hsave
          | some d =>
            rw [h4] at hsave
            simp only [Option.some_bind] at hsave
            cases hrest : saveInliersToMemory rest pos3d cp gms kps descs img with
            | none =>
              rw [hrest] at hsave
              simp at hsave
            | some feats =>
              rw [hrest] at hsave
              simp only [Option.some_bind, Option.pure_def, Option.some_inj] at hsave
              subst hsave
              cases k with
              | zero =>
                have ha : a = i := by
                  simp at hk
                  omega
                subst ha
                exact ⟨m, _, h2, rfl, h3, h4⟩
              | succ k =>
                have hk2 : rest.get? k = some a := by simpa using hk
                obtain ⟨m2, feat2, hm2, hf2, hk3, hd3⟩ := ih feats hrest k a hk2
                exact ⟨m2, feat2, hm2, by simpa using hf2, hk3, hd3⟩

/-! ## Lemmas: the validator gate chain of update -/

theorem update_spec_aux (cfg : EstimatorConfig) (st : EstimatorState)
    (aK : List KeyPt) (aD : List Descriptor) (fK : List KeyPt) (fD : List Descriptor)
    (img : List (List Nat)) (intr : CamIntrinsics) (o : SolverOracle)
    (r : Int) (st2 : EstimatorState)
    (h : update cfg st aK aD fK fD img intr o = some (r, st2)) :
    r = validatorOutcomeSpec cfg.minimumMatchesNumber cfg.reprojectionErrorDiscardThreshold
        cfg.maxPoseHeight cfg.minPoseHeight cfg.phoneOrientationDifferenceThreshold
        (goodMatchesStage cfg aK aD fK fD img).1.length o.inliers.length o.pnpSuccess
        o.reprojectionError o.worldPose.pz o.angleFromZ ∧
      (r ≠ 0 → st2 = st) ∧
      (r = 0 → st2 =
        { lastPoseEstimate := o.worldPose,
          lastEstimateMatchesNumber := (goodMatchesStage cfg aK aD fK fD img).1.length,
          lastEstimateReprojectionError := o.reprojectionError,
          didComputeEstimate := true }) := by
  simp only [update] at h
  simp only [validatorOutcomeSpec]
  rw [if_neg (by simp [findOrbMatches])] at h
  by_cases h1 : (goodMatchesStage cfg aK aD fK fD img).1.length < 4 ∨
      (goodMatchesStage cfg aK aD fK fD img).1.length < cfg.minimumMatchesNumber
  · rw [if_pos h1] at h
    rw [if_pos (by omega)]
    simp only [Option.some_inj, Prod.mk.injEq] at h
    obtain ⟨rfl, rfl⟩ := h
    exact ⟨rfl, fun _ => rfl, fun hc => absurd hc (by decide)⟩
  · rw [if_neg h1] at h
    rw [if_neg (by omega)]
    by_cases h2 : o.inliers.length < 4 ∨ o.inliers.length < cfg.minimumMatchesNumber
    · rw [if_pos h2] at h
      rw [if_pos (by omega)]
      simp only [Option.some_inj, Prod.mk.injEq] at h
      obtain ⟨rfl, rfl⟩ := h
      exact ⟨rfl, fun _ => rfl, fun hc => absurd hc (by decide)⟩
    · rw [if_neg h2] at h
      rw [if_neg (by omega)]
      cases hs : o.pnpSuccess with
      | false =>
        have hr2 : (if o.pnpSuccess = true then (0 : Int) else -1) = -1 := by
          rw [hs]
          simp
        rw [hr2, if_pos (by norm_num : (-1 : Int) < 0)] at h
        rw [if_pos (by decide : (!false) = true)]
        simp only [Option.some_inj, Prod.mk.injEq] at h
        obtain ⟨rfl, rfl⟩ := h
        exact ⟨rfl, fun _ => rfl, fun hc => absurd hc (by decide)⟩
      | true =>
        have hr2 : (if o.pnpSuccess = true then (0 : Int) else -1) = 0 := by
          rw [hs]
          simp
        rw [hr2, if_neg (by norm_num : ¬((0 : Int) < 0))] at h
        rw [if_neg (by decide : ¬((!true) = true))]
        by_cases h3 : cfg.reprojectionErrorDiscardThreshold < o.reprojectionError
        · rw [if_pos h3] at h
          rw [if_pos h3]
          simp only [Option.some_inj, Prod.mk.injEq] at h
          obtain ⟨rfl, rfl⟩ := h
          exact ⟨rfl, fun _ => rfl, fun hc => absurd hc (by decide)⟩
        · rw [if_neg h3] at h
          rw [if_neg h3]
          by_cases h4 : cfg.maxPoseHeight < o.worldPose.pz
          · rw [if_pos h4] at h
            rw [if_pos h4]
            simp only [Option.some_inj, Prod.mk.injEq] at h
            obtain ⟨rfl, rfl⟩ := h
            exact ⟨rfl, fun _ => rfl, fun hc => absurd hc (by decide)⟩
          · rw [if_neg h4] at h
            rw [if_neg h4]
            by_cases h5 : o.worldPose.pz < cfg.minPoseHeight
            · rw [if_pos h5] at h
              rw [if_pos h5]
              simp only [Option.some_inj, Prod.mk.injEq] at h
              obtain ⟨rfl, rfl⟩ := h
              exact ⟨rfl, fun _ => rfl, fun hc => absurd hc (by decide)⟩
            · rw [if_neg h5] at h
              rw [if_neg h5]
              by_cases h6 : cfg.phoneOrientationDifferenceThreshold < o.angleFromZ
              · rw [if_pos h6] at h
                rw [if_pos h6]
                simp only [Option.some_inj, Prod.mk.injEq] at h
                obtain ⟨rfl, rfl⟩ := h
                exact ⟨rfl, fun _ => rfl, fun hc => absurd hc (by decide)⟩
              · rw [if_neg h6] at h
                rw [if_neg h6]
                rw [Option.map_eq_some'] at h
                obtain ⟨a, hsv, hv⟩ := h
                simp only [Prod.mk.injEq] at hv
                obtain ⟨rfl, rfl⟩ := hv
                exact ⟨rfl, fun hne => absurd rfl hne, fun _ => rfl⟩

/-! ## The claims -/

/-- C1: for every call to `update` that returns, the returned outcome is
exactly the value of the sequential gate pipeline `validatorOutcomeSpec`
(first failing gate short-circuits: 1 = not enough matches, 2 = not enough
inliers, -5 = solver failure, 3 = reprojection, 4/5 = height, 6 = orientation,
0 = accepted); in particular a correspondence count below
`max 4 minimumMatchesNumber` forces outcome 1 regardless of every other
condition. -/
theorem update_outcome_first_failing_gate (cfg : EstimatorConfig) (st : EstimatorState)
    (aK : List KeyPt) (aD : List Descriptor) (fK : List KeyPt) (fD : List Descriptor)
    (img : List (List Nat)) (intr : CamIntrinsics) (o : SolverOracle)
    (r : Int) (st2 : EstimatorState)
    (h : update cfg st aK aD fK fD img intr o = some (r, st2)) :
    r = validatorOutcomeSpec cfg.minimumMatchesNumber cfg.reprojectionErrorDiscardThreshold
        cfg.maxPoseHeight cfg.minPoseHeight cfg.phoneOrientationDifferenceThreshold
        (goodMatchesStage cfg aK aD fK fD img).1.length o.inliers.length o.pnpSuccess
        o.reprojectionError o.worldPose.pz o.angleFromZ ∧
      ((goodMatchesStage cfg aK aD fK fD img).1.length < max 4 cfg.minimumMatchesNumber →
        r = 1) := by
  have hx := update_spec_aux cfg st aK aD fK fD img intr o r st2 h
  refine ⟨hx.1, fun hlt => ?_⟩
  rw [hx.1]
  simp only [validatorOutcomeSpec]
  rw [if_pos hlt]

theorem update_outcome_first_failing_gate_witness :
    (1 : Int) = validatorOutcomeSpec cfgA.minimumMatchesNumber
        cfgA.reprojectionErrorDiscardThreshold cfgA.maxPoseHeight cfgA.minPoseHeight
        cfgA.phoneOrientationDifferenceThreshold
        (goodMatchesStage cfgA [] [] [] [] []).1.length oA.inliers.length oA.pnpSuccess
        oA.reprojectionError oA.worldPose.pz oA.angleFromZ ∧
      ((goodMatchesStage cfgA [] [] [] [] []).1.length < max 4 cfgA.minimumMatchesNumber →
        (1 : Int) = 1) :=
  update_outcome_first_failing_gate cfgA stA [] [] [] [] [] intrA oA 1 stA
    (by with_unfolding_all decide)

/-- C2 counterexample: the zero-depth guard is commented out in the source, so
the search-and-write-back runs for every match; here it overwrites the nonzero
reading 5 at pixel (0,0) with the ring minimum 3. -/
theorem depth_repair_overwrites_nonzero :
    readPix [[5, 3]] 0 0 = 5 ∧
    readPix (fixMatchesDepthOrDrop [⟨0, 0, 1⟩] [⟨0, 0⟩] [[5, 3]]).2 0 0 = 3 := by
  with_unfolding_all decide

/-- C2 (amended): the depth resolver runs its search-and-write-back for every
match unconditionally (the only-when-zero guard is commented out), but it
still (a) never zeroes a nonzero reading, (b) leaves every pixel that is not a
match's written pixel untouched, and (c) every nonzero value of the final
image is a nonzero value read somewhere in the original image. -/
theorem depth_repair_amended (fK : List KeyPt) (ms : List DMatch) (img : List (List Nat))
    (a b : Int) :
    (readPix img a b ≠ 0 → readPix (fixMatchesDepthOrDrop ms fK img).2 a b ≠ 0) ∧
    ((∀ m ∈ ms, (ratRound (kpAt fK m.trainIdx).x, ratRound (kpAt fK m.trainIdx).y) ≠ (a, b)) →
      readPix (fixMatchesDepthOrDrop ms fK img).2 a b = readPix img a b) ∧
    (readPix (fixMatchesDepthOrDrop ms fK img).2 a b ≠ 0 →
      ∃ c d : Int, readPix img c d = readPix (fixMatchesDepthOrDrop ms fK img).2 a b ∧
        readPix img c d ≠ 0) :=
  ⟨fixMatches_preserves_nonzero fK ms img a b,
   fixMatches_untouched fK ms img a b,
   fixMatches_provenance fK ms img a b⟩

theorem depth_repair_amended_witness :
    readPix [[5, 3]] 1 0 ≠ 0 ∧
    readPix (fixMatchesDepthOrDrop [⟨0, 0, 1⟩] [⟨0, 0⟩] [[5, 3]]).2 1 0 ≠ 0 :=
  ⟨by with_unfolding_all decide,
   (depth_repair_amended [⟨0, 0⟩] [⟨0, 0, 1⟩] [[5, 3]] 1 0).1 (by with_unfolding_all decide)⟩

/-- C3: a call to `update` that returns a nonzero outcome leaves the carried
state exactly as it was; only outcome 0 assigns the four state fields (to the
world pose, the correspondence count, and the reprojection error, setting
`didComputeEstimate`). -/
theorem update_rejection_preserves_state (cfg : EstimatorConfig) (st : EstimatorState)
    (aK : List KeyPt) (aD : List Descriptor) (fK : List KeyPt) (fD : List Descriptor)
    (img : List (List Nat)) (intr : CamIntrinsics) (o : SolverOracle)
    (r : Int) (st2 : EstimatorState)
    (h : update cfg st aK aD fK fD img intr o = some (r, st2)) :
    (r ≠ 0 → st2 = st) ∧
    (r = 0 → st2 =
      { lastPoseEstimate := o.worldPose,
        lastEstimateMatchesNumber := (goodMatchesStage cfg aK aD fK fD img).1.length,
        lastEstimateReprojectionError := o.reprojectionError,
        didComputeEstimate := true }) :=
  (update_spec_aux cfg st aK aD fK fD img intr o r st2 h).2

theorem update_rejection_preserves_state_witness :
    ((1 : Int) ≠ 0 → stA = stA) ∧
    ((1 : Int) = 0 → stA =
      { lastPoseEstimate := oA.worldPose,
        lastEstimateMatchesNumber := (goodMatchesStage cfgA [] [] [] [] []).1.length,
        lastEstimateReprojectionError := oA.reprojectionError,
        didComputeEstimate := true }) :=
  update_rejection_preserves_state cfgA stA [] [] [] [] [] intrA oA 1 stA
    (by with_unfolding_all decide)

/-- C4: one iteration of the resolution loop on a same-origin group of more
than one member either (destinations agreeing) merges the group into the
representative, whose distance becomes the arithmetic mean of the members'
distances, erasing the other members' positions, or (destinations
contradicting) erases every member's position including the representative. -/
theorem filter_group_merge_or_discard (aK fK : List KeyPt) (t : ℚ) (gm : List DMatch)
    (i : Nat) (h1 : 1 < (sameOriginIdxs aK t gm i).length) :
    mergeStep aK fK t gm i =
      if haveSameDestination fK t gm i (sameOriginIdxs aK t gm i) then
        removePositions (sameOriginIdxs aK t gm i).tail
          (gm.set i { gm.getD i ⟨0, 0, 0⟩ with
            distance := ((sameOriginIdxs aK t gm i).map
              (fun j => (gm.getD j ⟨0, 0, 0⟩).distance)).sum /
                (sameOriginIdxs aK t gm i).length }) 0
      else removePositions (sameOriginIdxs aK t gm i) gm 0 :=
  mergeStep_eq aK fK t gm i h1

theorem filter_group_merge_or_discard_witness :
    1 < (sameOriginIdxs aKB 1 gmB 0).length ∧
    mergeStep aKB fKB 1 gmB 0 =
      (if haveSameDestination fKB 1 gmB 0 (sameOriginIdxs aKB 1 gmB 0) then
        removePositions (sameOriginIdxs aKB 1 gmB 0).tail
          (gmB.set 0 { gmB.getD 0 ⟨0, 0, 0⟩ with
            distance := ((sameOriginIdxs aKB 1 gmB 0).map
              (fun j => (gmB.getD j ⟨0, 0, 0⟩).distance)).sum /
                (sameOriginIdxs aKB 1 gmB 0).length }) 0
      else removePositions (sameOriginIdxs aKB 1 gmB 0) gmB 0) :=
  ⟨by with_unfolding_all decide,
   filter_group_merge_or_discard aKB fKB 1 gmB 0 (by with_unfolding_all decide)⟩

/-- C5 counterexample: the filter/merger is not idempotent.  Erasing a
contradictory group shifts the next element into the erased position, and the
loop index then skips it, so two matches with near origins and far
destinations survive a first pass and are erased by a second. -/
theorem filterMatches_not_idempotent :
    filterMatches (filterMatches mC aKC fKC 100 1) aKC fKC 100 1 ≠
      filterMatches mC aKC fKC 100 1 := by
  with_unfolding_all decide

/-- C5 (amended): the filter/merger is idempotent on every input whose
resolution loop never takes the contradictory branch: then the output is
pairwise origin-separated, every output distance is below the threshold, and a
second application changes nothing.  (When a contradictory group is erased,
the element shifted into the erased position can be skipped, and idempotence
can fail.) -/
theorem filterMatches_idempotent_amended (M : List DMatch) (aK fK : List KeyPt) (T t : ℚ)
    (h : loopContradicts aK fK t (thresholdFilter M T) 0 = false) :
    filterMatches (filterMatches M aK fK T t) aK fK T t = filterMatches M aK fK T t := by
  unfold filterMatches
  have hsep : SepAll aK t (mergeLoop aK fK t (thresholdFilter M T) 0) :=
    mergeLoop_sep aK fK t (thresholdFilter M T).length (thresholdFilter M T) 0 (by omega) h
      (sepPrefix_zero aK t (thresholdFilter M T))
  have hdist : ∀ m ∈ mergeLoop aK fK t (thresholdFilter M T) 0, m.distance ≤ T :=
    mergeLoop_dist_le aK fK t T (thresholdFilter M T).length (thresholdFilter M T) 0
      (by omega) (thresholdFilter_dist_le M T)
  rw [thresholdFilter_eq_self _ T hdist]
  exact mergeLoop_of_sepAll aK fK t _ hsep
    (mergeLoop aK fK t (thresholdFilter M T) 0).length 0 (by omega)

theorem filterMatches_idempotent_amended_witness :
    loopContradicts aKD aKD 1 (thresholdFilter mD 100) 0 = false ∧
    filterMatches (filterMatches mD aKD aKD 100 1) aKD aKD 100 1 =
      filterMatches mD aKD aKD 100 1 :=
  ⟨by with_unfolding_all decide,
   filterMatches_idempotent_amended mD aKD aKD 100 1 (by with_unfolding_all decide)⟩

set_option maxRecDepth 100000 in
/-- C6 counterexample: the survival of a match is not equivalent to a nonzero
final depth at its pixel.  A match processed early can be dropped while a
later match's repair writes a nonzero value at the same pixel. -/
theorem fixMatches_survival_not_iff :
    ¬((⟨0, 0, 1⟩ : DMatch) ∈ (fixMatchesDepthOrDrop msE fKE imgE).1 ↔
      readPix (fixMatchesDepthOrDrop msE fKE imgE).2
        (ratRound (kpAt fKE (⟨0, 0, 1⟩ : DMatch).trainIdx).x)
        (ratRound (kpAt fKE (⟨0, 0, 1⟩ : DMatch).trainIdx).y) ≠ 0) := by
  with_unfolding_all decide

/-- C6 (amended): the surviving subset is a sublist of the input; every
surviving match reads a nonzero final depth at its fixed-side pixel; and every
nonzero value of the final image is a nonzero value read somewhere in the
original image (repair searches only within the bounded radius, and the
converse of the survival property can fail for matches processed before a
later repair of the same pixel). -/
theorem fixMatches_survivors_amended (fK : List KeyPt) (ms : List DMatch)
    (img : List (List Nat)) :
    List.Sublist (fixMatchesDepthOrDrop ms fK img).1 ms ∧
    (∀ m ∈ (fixMatchesDepthOrDrop ms fK img).1,
      readPix (fixMatchesDepthOrDrop ms fK img).2
        (ratRound (kpAt fK m.trainIdx).x) (ratRound (kpAt fK m.trainIdx).y) ≠ 0) ∧
    (∀ a b : Int, readPix (fixMatchesDepthOrDrop ms fK img).2 a b ≠ 0 →
      ∃ c d : Int, readPix img c d = readPix (fixMatchesDepthOrDrop ms fK img).2 a b ∧
        readPix img c d ≠ 0) :=
  ⟨fixMatches_sublist fK ms img,
   fun m hm => fixMatches_out_nonzero fK ms img m hm,
   fun a b h => fixMatches_provenance fK ms img a b h⟩

theorem fixMatches_survivors_amended_witness :
    (⟨0, 0, 1⟩ : DMatch) ∈ (fixMatchesDepthOrDrop [⟨0, 0, 1⟩] [⟨0, 0⟩] [[5]]).1 ∧
    readPix (fixMatchesDepthOrDrop [⟨0, 0, 1⟩] [⟨0, 0⟩] [[5]]).2
      (ratRound (kpAt [⟨0, 0⟩] (⟨0, 0, 1⟩ : DMatch).trainIdx).x)
      (ratRound (kpAt [⟨0, 0⟩] (⟨0, 0, 1⟩ : DMatch).trainIdx).y) ≠ 0 :=
  ⟨by with_unfolding_all decide,
   (fixMatches_survivors_amended [⟨0, 0⟩] [⟨0, 0, 1⟩] [[5]]).2.1 ⟨0, 0, 1⟩
     (by with_unfolding_all decide)⟩

/-- C7 counterexample: the quantity the orientation gate compares is not the
angle in degrees.  The code multiplies the radian angle by `180 / 3.14159`
rather than `180 / π`: on a pose whose optical axis points straight down it
returns `π · 180 / 3.14159`, which differs from 180 degrees. -/
theorem angle_not_degrees :
    computeAngleFromZAxis poseB ≠ angleFromVerticalDeg poseB := by
  have h1 : (opticalAxis poseB).1 = 0 := by with_unfolding_all decide
  have h2 : (opticalAxis poseB).2.1 = 0 := by with_unfolding_all decide
  have h3 : (opticalAxis poseB).2.2 = -1 := by with_unfolding_all decide
  have hv : angleFromVertical poseB = Real.pi := by
    unfold angleFromVertical tfAngle
    rw [h1, h2, h3]
    push_cast
    norm_num [Real.sqrt_one, Real.arccos_neg_one]
  unfold computeAngleFromZAxis angleFromVerticalDeg
  rw [hv, abs_of_pos Real.pi_pos]
  have hlt : Real.pi * 180 / Real.pi < Real.pi * 180 / 3.14159 := by
    apply div_lt_div_of_pos_left
    · positivity
    · norm_num
    · linarith [Real.pi_gt_3141592]
  exact ne_of_gt hlt

/-- C7 (amended): for a call that reaches the orientation gate (all earlier
gates pass), the outcome is 6 exactly when the compared quantity exceeds
`phoneOrientationDifferenceThreshold`; and the quantity the code computes is
the optical-axis angle scaled by `180 / 3.14159`, i.e. the angle in degrees
multiplied by `π / 3.14159` (slightly more than one). -/
theorem orientation_gate_amended (cfg : EstimatorConfig) (st : EstimatorState)
    (aK : List KeyPt) (aD : List Descriptor) (fK : List KeyPt) (fD : List Descriptor)
    (img : List (List Nat)) (intr : CamIntrinsics) (o : SolverOracle)
    (r : Int) (st2 : EstimatorState) (p : Pose)
    (h : update cfg st aK aD fK fD img intr o = some (r, st2))
    (hA : ¬((goodMatchesStage cfg aK aD fK fD img).1.length < 4 ∨
        (goodMatchesStage cfg aK aD fK fD img).1.length < cfg.minimumMatchesNumber))
    (hB : ¬(o.inliers.length < 4 ∨ o.inliers.length < cfg.minimumMatchesNumber))
    (hS : o.pnpSuccess = true)
    (hC : ¬(cfg.reprojectionErrorDiscardThreshold < o.reprojectionError))
    (hD : ¬(cfg.maxPoseHeight < o.worldPose.pz))
    (hE : ¬(o.worldPose.pz < cfg.minPoseHeight)) :
    (r = 6 ↔ cfg.phoneOrientationDifferenceThreshold < o.angleFromZ) ∧
    computeAngleFromZAxis p = angleFromVerticalDeg p * (Real.pi / 3.14159) := by
  have hx := (update_spec_aux cfg st aK aD fK fD img intr o r st2 h).1
  simp only [validatorOutcomeSpec] at hx
  rw [if_neg (by omega), if_neg (by omega), if_neg (by simp [hS]), if_neg hC, if_neg hD,
    if_neg hE] at hx
  constructor
  · by_cases h6 : cfg.phoneOrientationDifferenceThreshold < o.angleFromZ
    · rw [if_pos h6] at hx
      exact ⟨fun _ => h6, fun _ => hx⟩
    · rw [if_neg h6] at hx
      exact ⟨fun hr6 => absurd (hr6.symm.trans hx) (by decide), fun hc => absurd hc h6⟩
  · unfold computeAngleFromZAxis angleFromVerticalDeg
    rw [div_mul_div_comm, mul_comm Real.pi (3.14159 : ℝ),
      mul_div_mul_right _ _ Real.pi_ne_zero]

theorem orientation_gate_amended_witness :
    ((6 : Int) = 6 ↔ cfgF.phoneOrientationDifferenceThreshold < oF.angleFromZ) ∧
    computeAngleFromZAxis poseA = angleFromVerticalDeg poseA * (Real.pi / 3.14159) :=
  orientation_gate_amended cfgF stA aKF dsF fKF dsF imgF intrA oF 6 stA poseA
    (by with_unfolding_all decide) (by with_unfolding_all decide)
    (by with_unfolding_all decide) rfl (by with_unfolding_all decide)
    (by with_unfolding_all decide) (by with_unfolding_all decide)

/-- C8 counterexample: the matcher does not fail on an empty descriptor set.
`findOrbMatches` ends in a literal `return 0`, so the result is 0 (success)
even when the query set is empty. -/
theorem findOrbMatches_empty_no_failure :
    ¬((findOrbMatches ([] : List Descriptor) [[true]]).1 < 0) := by decide

/-- C8 (amended): `findOrbMatches` never fails: its result code is 0 on every
input, including empty descriptor sets, for which the produced match list is
empty (the insufficiency then surfaces later as `update` outcome 1, not as a
negative matcher code). -/
theorem findOrbMatches_never_fails (aD fD : List Descriptor) :
    (findOrbMatches aD fD).1 = 0 ∧
    (aD = [] ∨ fD = [] → (findOrbMatches aD fD).2 = []) := by
  refine ⟨rfl, ?_⟩
  rintro (rfl | rfl)
  · rfl
  · show bfMatchAll aD [] = []
    unfold bfMatchAll
    refine List.filterMap_eq_nil.mpr ?_
    intro x hx
    rfl

theorem findOrbMatches_never_fails_witness :
    (findOrbMatches ([] : List Descriptor) [[true]]).1 = 0 ∧
    (([] : List Descriptor) = [] ∨ ([[true]] : List Descriptor) = [] →
      (findOrbMatches ([] : List Descriptor) [[true]]).2 = []) :=
  findOrbMatches_never_fails [] [[true]]

/-- C9: when input decoding succeeds and the fixed-side ORB extraction does
not fail, `featuresCallback` returns exactly ten times the outcome of
`update`, called on the fixed-side features (extended by the feature memory
when enabled). -/
theorem featuresCallback_ten_times_update (cfg : EstimatorConfig) (st : EstimatorState)
    (aK : List KeyPt) (aD : List Descriptor) (oK : List KeyPt) (oD : List Descriptor)
    (mem : List StoredFeature) (img : List (List Nat)) (intr : CamIntrinsics)
    (o : SolverOracle) (horb : ¬(computeOrbFeatures oK oD < 0)) :
    featuresCallback true cfg st aK aD oK oD mem img intr o =
      (update cfg st aK aD
        (if cfg.enableFeaturesMemory then oK ++ mem.map (fun f => f.keypoint) else oK)
        (if cfg.enableFeaturesMemory then oD ++ mem.map (fun f => f.descriptor) else oD)
        img intr o).map (fun p => (10 * p.1, p.2)) := by
  simp only [featuresCallback]
  rw [if_neg (by decide), if_neg horb]

theorem featuresCallback_ten_times_update_witness :
    featuresCallback true cfgA stA [] [] [⟨0, 0⟩] [[true]] [] [] intrA oA =
      (update cfgA stA [] []
        (if cfgA.enableFeaturesMemory then
          [⟨0, 0⟩] ++ ([] : List StoredFeature).map (fun f => f.keypoint) else [⟨0, 0⟩])
        (if cfgA.enableFeaturesMemory then
          [[true]] ++ ([] : List StoredFeature).map (fun f => f.descriptor) else [[true]])
        [] intrA oA).map (fun p => (10 * p.1, p.2)) :=
  featuresCallback_ten_times_update cfgA stA [] [] [⟨0, 0⟩] [[true]] [] [] intrA oA
    (by decide)

/-- C10: the feature-memory save loop accesses the mobile-side containers only
through bounds-checked lookups at the match's `trainIdx`: it completes exactly
when every inlier indexes a stored 3D position and a match whose `trainIdx` is
strictly below both mobile container sizes (an out-of-range inlier makes the
whole loop raise instead of storing), and each stored feature's keypoint and
descriptor are the mobile-side entries at its match's `trainIdx`. -/
theorem saveInliers_bounds_checked (inl : List Nat) (pos3d : List (ℚ × ℚ × ℚ)) (cp : Pose)
    (gms : List DMatch) (kps : List KeyPt) (descs : List Descriptor)
    (img : List (List Nat)) :
    ((saveInliersToMemory inl pos3d cp gms kps descs img).isSome ↔
      ∀ n ∈ inl, n < pos3d.length ∧ ∃ m, gms.get? n = some m ∧
        m.trainIdx < kps.length ∧ m.trainIdx < descs.length) ∧
    ∀ fs, saveInliersToMemory inl pos3d cp gms kps descs img = some fs →
      ∀ k a, inl.get? k = some a →
        ∃ m feat, gms.get? a = some m ∧ fs.get? k = some feat ∧
          kps.get? m.trainIdx = some feat.keypoint ∧
          descs.get? m.trainIdx = some feat.descriptor :=
  ⟨saveInliers_isSome_iff inl pos3d cp gms kps descs img,
   fun fs h k a hk => saveInliers_content inl pos3d cp gms kps descs img fs h k a hk⟩

theorem saveInliers_bounds_checked_witness :
    ∀ n ∈ [0], n < ([((0 : ℚ), (0 : ℚ), (0 : ℚ))]).length ∧
      ∃ m, ([⟨0, 0, 1⟩] : List DMatch).get? n = some m ∧
        m.trainIdx < ([⟨0, 0⟩] : List KeyPt).length ∧
        m.trainIdx < ([[true]] : List Descriptor).length :=
  (saveInliers_bounds_checked [0] [((0 : ℚ), (0 : ℚ), (0 : ℚ))] poseA [⟨0, 0, 1⟩]
    [⟨0, 0⟩] [[true]] []).1.mp (by with_unfolding_all decide)

end CPE
